import Mathlib

/-!
Verification of the typegen editor-plugin daemon session manager.

The development shallowly embeds the two parser-client variants found in
the repository — the single-slot client (`TgsParser` with a single
`currentRequest`) and the FIFO-queue-with-dedup client (`TgsParser` with
`requestQueue` / `pendingRequests`) — together with their shared protocol
logic: the stdout line framer, the error-string escape decoding
(`processErrors`), and the diagnostics mapping
(`parseErrorsToDiagnostics`).  Strings are modelled as `List Char`;
stateful code is modelled as explicit state-passing steps that also
return the caller-visible outputs (resolutions, rejections, wire writes,
process actions) of the step.
-/

namespace Typegen

/-- Boolean test that the first list is a leading segment of the second;
this is the matching primitive used by the embeddings of JavaScript
`String.replace` (with a global literal pattern) and `String.split`. -/
def isPre : List Char → List Char → Bool
  | [], _ => true
  | _ :: _, [] => false
  | a :: as, b :: bs => if a = b then isPre as bs else false

theorem isPre_nil_left (l : List Char) : isPre [] l = true := by
  cases l <;> rfl

theorem isPre_cons_nil (a : Char) (as : List Char) : isPre (a :: as) [] = false := rfl

theorem isPre_cons_cons (a b : Char) (as bs : List Char) :
    isPre (a :: as) (b :: bs) = if a = b then isPre as bs else false := rfl

theorem isPre_cons_neq (a b : Char) (as bs : List Char) (h : a ≠ b) :
    isPre (a :: as) (b :: bs) = false := by
  rw [isPre_cons_cons, if_neg h]

theorem isPre_self_app (p x : List Char) : isPre p (p ++ x) = true := by
  induction p with
  | nil => exact isPre_nil_left x
  | cons a as ih => simpa [isPre_cons_cons] using ih

theorem isPre_app_cancel (a q x : List Char) : isPre (a ++ q) (a ++ x) = isPre q x := by
  induction a with
  | nil => rfl
  | cons c cs ih => simpa [isPre_cons_cons] using ih

/-- A successful `isPre` test decomposes the target. -/
theorem isPre_extract (p : List Char) :
    ∀ s : List Char, isPre p s = true → s = p ++ s.drop p.length := by
  induction p with
  | nil => intro s _; simp
  | cons a as ih =>
    intro s h
    cases s with
    | nil => simp [isPre_cons_nil] at h
    | cons b bs =>
      rw [isPre_cons_cons] at h
      by_cases hab : a = b
      · rw [if_pos hab] at h
        have := ih bs h
        simp [hab, List.drop_succ_cons]
        conv_lhs => rw [this]
      · rw [if_neg hab] at h
        exact absurd h (by simp)

/-- Leftmost, non-overlapping, global replacement of the literal pattern
`pat` by `rep`: the embedding of the source's
`error.replace(/pat/g, rep)` calls, whose patterns are all literal
character sequences. -/
def replaceAll (pat rep : List Char) : List Char → List Char
  | [] => []
  | c :: rest =>
    if h : isPre pat (c :: rest) = true ∧ pat ≠ [] then
      rep ++ replaceAll pat rep (List.drop pat.length (c :: rest))
    else
      c :: replaceAll pat rep rest
termination_by s => s.length
decreasing_by
  · have hp : 0 < pat.length := List.length_pos.mpr h.2
    simp only [List.length_drop, List.length_cons]
    omega
  · simp

theorem replaceAll_nil (pat rep : List Char) : replaceAll pat rep [] = [] := by
  rw [replaceAll]

theorem replaceAll_cons_pos (pat rep : List Char) (c : Char) (rest : List Char)
    (h1 : isPre pat (c :: rest) = true) (h2 : pat ≠ []) :
    replaceAll pat rep (c :: rest) =
      rep ++ replaceAll pat rep (List.drop pat.length (c :: rest)) := by
  rw [replaceAll, dif_pos ⟨h1, h2⟩]

theorem replaceAll_cons_neg (pat rep : List Char) (c : Char) (rest : List Char)
    (h : isPre pat (c :: rest) = false) :
    replaceAll pat rep (c :: rest) = c :: replaceAll pat rep rest := by
  rw [replaceAll, dif_neg]
  intro hc
  rw [h] at hc
  exact absurd hc.1 (by simp)

/-- A match of the pattern itself at the head is rewritten to the
replacement, and scanning continues past it. -/
theorem replaceAll_match (pat rep b : List Char) (h2 : pat ≠ []) :
    replaceAll pat rep (pat ++ b) = rep ++ replaceAll pat rep b := by
  cases pat with
  | nil => exact absurd rfl h2
  | cons p ps =>
    rw [List.cons_append, replaceAll_cons_pos _ _ _ _ (by
      rw [← List.cons_append]; exact isPre_self_app _ _) h2]
    congr 1
    rw [← List.cons_append, List.drop_left]

/-- Characters that cannot start a match are copied through unchanged:
a pattern beginning with a backslash never matches inside a
backslash-free segment. -/
theorem replaceAll_skip_noBS (pt rep : List Char) :
    ∀ a b : List Char, (∀ c ∈ a, c ≠ '\\') →
      replaceAll ('\\' :: pt) rep (a ++ b) = a ++ replaceAll ('\\' :: pt) rep b := by
  intro a
  induction a with
  | nil => intro b _; simp
  | cons c cs ih =>
    intro b ha
    have hc : c ≠ '\\' := ha c (by simp)
    rw [List.cons_append, replaceAll_cons_neg _ _ _ _ (isPre_cons_neq _ _ _ _ (fun h => hc h.symm))]
    rw [ih b (fun x hx => ha x (by simp [hx]))]
    rfl

/-- A backslash-headed block whose head position does not match is
copied through when its tail is backslash-free. -/
theorem replaceAll_skip_block (pt rep : List Char) (a b : List Char)
    (ha : ∀ x ∈ a, x ≠ '\\')
    (hm : isPre ('\\' :: pt) ('\\' :: (a ++ b)) = false) :
    replaceAll ('\\' :: pt) rep ('\\' :: (a ++ b)) =
      '\\' :: (a ++ replaceAll ('\\' :: pt) rep b) := by
  rw [replaceAll_cons_neg _ _ _ _ hm, replaceAll_skip_noBS pt rep a b ha]

/-! ## Protocol codec: error-string escape decoding -/

/-- The six characters of the worker's numeric escape for `<`. -/
def escLT : List Char := ['\\', 'u', '0', '0', '3', 'C']

/-- The six characters of the worker's numeric escape for `>`. -/
def escGT : List Char := ['\\', 'u', '0', '0', '3', 'E']

/-- The six characters of the worker's numeric escape for the apostrophe. -/
def escAP : List Char := ['\\', 'u', '0', '0', '2', '7']

/-- The escaped form of the delimiter token, as it appears in the first
entry of the source's `replacements` table. -/
def escDelim : List Char := escLT ++ ('S' :: 'P' :: 'A' :: 'C' :: 'E' :: escGT)

/-- The literal delimiter token separating line number and message in the
wire error format. -/
def delim : List Char := ['<', 'S', 'P', 'A', 'C', 'E', '>']

/-- The `replacements` table of `TgsParser.processErrors`, applied in
order: the escaped delimiter first, then the three single-character
escapes. -/
def replacements : List (List Char × List Char) :=
  [(escDelim, delim), (escLT, ['<']), (escGT, ['>']), (escAP, ['\''])]

/-- Decoding of one wire error string (`TgsParser.processErrors` applied
to a single element): the four global replacements, in table order. -/
def processErrorsOne (e : List Char) : List Char :=
  replacements.foldl (fun acc pr => replaceAll pr.1 pr.2 acc) e

/-- `TgsParser.processErrors`: decode every error string in the list. -/
def processErrors (errors : List (List Char)) : List (List Char) :=
  errors.map processErrorsOne

theorem processErrorsOne_eq (e : List Char) :
    processErrorsOne e =
      replaceAll escAP ['\''] (replaceAll escGT ['>']
        (replaceAll escLT ['<'] (replaceAll escDelim delim e))) := rfl

/-- Modelled from the spec: the worker's escape encoding of an error
string.  The worker process itself is outside the repository; per the
wire contract (§6) it encodes the literal characters `<`, `>` and `'`
as the numeric escapes `escLT`, `escGT` and `escAP` (which also turns a
literal delimiter token into its escaped form `escDelim`). -/
def encodeChar (c : Char) : List Char :=
  if c = '<' then escLT
  else if c = '>' then escGT
  else if c = '\'' then escAP
  else [c]

/-- Modelled from the spec: worker-side escape encoding of a whole error
string, character by character. -/
def encodeErrorString (s : List Char) : List Char :=
  s.flatMap encodeChar

theorem encodeErrorString_nil : encodeErrorString [] = [] := rfl

theorem encodeErrorString_cons (c : Char) (t : List Char) :
    encodeErrorString (c :: t) = encodeChar c ++ encodeErrorString t := rfl

theorem encodeErrorString_append (a b : List Char) :
    encodeErrorString (a ++ b) = encodeErrorString a ++ encodeErrorString b := by
  simp [encodeErrorString]

theorem encodeErrorString_delim : encodeErrorString delim = escDelim := rfl

/-- Heads of the three escape blocks are the backslash, so an encoded
string headed by an ordinary character is headed by that character. -/
theorem encodeChar_ordinary (c : Char) (h1 : c ≠ '<') (h2 : c ≠ '>') (h3 : c ≠ '\'') :
    encodeChar c = [c] := by
  simp [encodeChar, h1, h2, h3]

/-- Prefix tests of an ordinary-character pattern against an encoded
string reduce to tests against the source string, one character at a
time. -/
theorem isPre_cons_enc (c : Char) (hc0 : c ≠ '\\') (hc1 : c ≠ '<') (hc2 : c ≠ '>')
    (hc3 : c ≠ '\'') (q : List Char) (t : List Char) :
    isPre (c :: q) (encodeErrorString t) =
      (match t with
       | [] => false
       | d :: t' => if d = c then isPre q (encodeErrorString t') else false) := by
  cases t with
  | nil => rfl
  | cons d t' =>
    rw [encodeErrorString_cons]
    by_cases h1 : d = '<'
    · subst h1
      have : ('<' : Char) ≠ c := fun h => hc1 h.symm
      simp only [encodeChar, if_pos rfl]
      show isPre (c :: q) ('\\' :: _) = _
      rw [isPre_cons_neq _ _ _ _ hc0]
      simp [this]
    · by_cases h2 : d = '>'
      · subst h2
        have : ('>' : Char) ≠ c := fun h => hc2 h.symm
        simp only [encodeChar, if_neg (by decide : ('>' : Char) ≠ '<'), if_pos rfl]
        show isPre (c :: q) ('\\' :: _) = _
        rw [isPre_cons_neq _ _ _ _ hc0]
        simp [this]
      · by_cases h3 : d = '\''
        · subst h3
          have : ('\'' : Char) ≠ c := fun h => hc3 h.symm
          simp only [encodeChar, if_neg (by decide : ('\'' : Char) ≠ '<'),
            if_neg (by decide : ('\'' : Char) ≠ '>'), if_pos rfl]
          show isPre (c :: q) ('\\' :: _) = _
          rw [isPre_cons_neq _ _ _ _ hc0]
          simp [this]
        · rw [encodeChar_ordinary d h1 h2 h3]
          show isPre (c :: q) (d :: _) = _
          rw [isPre_cons_cons]
          by_cases hcd : c = d
          · subst hcd; simp
          · rw [if_neg hcd]
            have hdc : d ≠ c := fun h => hcd h.symm
            simp [hdc]

/-- The escape for `>` occurs at the head of an encoded string exactly
when the source string starts with `>`. -/
theorem isPre_escGT_enc (t : List Char) (ht : ∀ c ∈ t, c ≠ '\\') :
    isPre escGT (encodeErrorString t) =
      (match t with
       | [] => false
       | d :: _ => if d = '>' then true else false) := by
  cases t with
  | nil => rfl
  | cons d t'
  =>
    rw [encodeErrorString_cons]
    by_cases h1 : d = '<'
    · subst h1
      simp only [encodeChar, if_pos rfl]
      show isPre escGT (escLT ++ _) = _
      simp [escGT, escLT, isPre]
    · by_cases h2 : d = '>'
      · subst h2
        simp only [encodeChar, if_neg (by decide : ('>' : Char) ≠ '<'), if_pos rfl]
        show isPre escGT (escGT ++ _) = _
        simp [isPre_self_app]
      · by_cases h3 : d = '\''
        · subst h3
          simp only [encodeChar, if_neg (by decide : ('\'' : Char) ≠ '<'),
            if_neg (by decide : ('\'' : Char) ≠ '>'), if_pos rfl]
          show isPre escGT (escAP ++ _) = _
          simp [escGT, escAP, isPre, h2]
        · rw [encodeChar_ordinary d h1 h2 h3]
          show isPre escGT (d :: _) = _
          have hd : d ≠ '\\' := ht d (by simp)
          rw [show escGT = '\\' :: ['u', '0', '0', '3', 'E'] from rfl,
            isPre_cons_neq _ _ _ _ (fun h => hd h.symm)]
          simp [h2]

theorem isPre_escDelim_escGT (X : List Char) : isPre escDelim (escGT ++ X) = false := rfl

theorem isPre_escLT_escGT (X : List Char) : isPre escLT (escGT ++ X) = false := rfl

theorem isPre_escDelim_escAP (X : List Char) : isPre escDelim (escAP ++ X) = false := rfl

theorem isPre_escLT_escAP (X : List Char) : isPre escLT (escAP ++ X) = false := rfl

theorem isPre_escGT_escAP (X : List Char) : isPre escGT (escAP ++ X) = false := rfl

/-- One peeling step for comparing an ordinary-character pattern with an
encoded string. -/
theorem isPre_enc_step (c : Char) (hc0 : c ≠ '\\') (hc1 : c ≠ '<') (hc2 : c ≠ '>')
    (hc3 : c ≠ '\'') (q q' : List Char)
    (hrec : ∀ t, (∀ x ∈ t, x ≠ '\\') → isPre q (encodeErrorString t) = isPre q' t) :
    ∀ t, (∀ x ∈ t, x ≠ '\\') →
      isPre (c :: q) (encodeErrorString t) = isPre (c :: q') t := by
  intro t ht
  rw [isPre_cons_enc c hc0 hc1 hc2 hc3 q t]
  cases t with
  | nil => rfl
  | cons d t' =>
    show (if d = c then isPre q (encodeErrorString t') else false) = isPre (c :: q') (d :: t')
    rw [isPre_cons_cons]
    by_cases hdc : d = c
    · rw [if_pos hdc, if_pos hdc.symm]
      exact hrec t' (fun x hx => ht x (by simp [hx]))
    · rw [if_neg hdc, if_neg (fun h => hdc h.symm)]

/-- Base of the peeling: the escaped `>` heads an encoded string exactly
when `>` heads the source string. -/
theorem isPre_encGT_base :
    ∀ t, (∀ x ∈ t, x ≠ '\\') → isPre escGT (encodeErrorString t) = isPre ['>'] t := by
  intro t ht
  rw [isPre_escGT_enc t ht]
  cases t with
  | nil => rfl
  | cons d t' =>
    show (if d = '>' then true else false) = isPre ['>'] (d :: t')
    rw [show (['>'] : List Char) = '>' :: [] from rfl, isPre_cons_cons]
    by_cases h : d = '>'
    · rw [if_pos h, if_pos h.symm, isPre_nil_left]
    · rw [if_neg h, if_neg (fun hh => h hh.symm)]

/-- The tail of the escaped delimiter heads an encoded string exactly
when the tail of the literal delimiter heads the source string. -/
theorem isPre_spaceGT_enc :
    ∀ t, (∀ x ∈ t, x ≠ '\\') →
      isPre ('S' :: 'P' :: 'A' :: 'C' :: 'E' :: escGT) (encodeErrorString t) =
        isPre ('S' :: 'P' :: 'A' :: 'C' :: 'E' :: ['>']) t := by
  have hE := isPre_enc_step 'E' (by decide) (by decide) (by decide) (by decide) _ _
    isPre_encGT_base
  have hC := isPre_enc_step 'C' (by decide) (by decide) (by decide) (by decide) _ _ hE
  have hA := isPre_enc_step 'A' (by decide) (by decide) (by decide) (by decide) _ _ hC
  have hP := isPre_enc_step 'P' (by decide) (by decide) (by decide) (by decide) _ _ hA
  exact isPre_enc_step 'S' (by decide) (by decide) (by decide) (by decide) _ _ hP

/-- If the source string does not continue with `SPACE>` after a `<`,
the escaped delimiter does not match at the head of the encoding. -/
theorem isPre_escDelim_encLT (t : List Char) (ht : ∀ x ∈ t, x ≠ '\\')
    (hsp : isPre ('S' :: 'P' :: 'A' :: 'C' :: 'E' :: ['>']) t = false) :
    isPre escDelim (escLT ++ encodeErrorString t) = false := by
  rw [show escDelim = escLT ++ ('S' :: 'P' :: 'A' :: 'C' :: 'E' :: escGT) from rfl,
    isPre_app_cancel, isPre_spaceGT_enc t ht, hsp]

/-- Decoding a string that starts with the escaped `<` (and is known not
to start with the full escaped delimiter) yields a literal `<` and the
decoding of the rest. -/
theorem decode_block_lt (X : List Char) (hm : isPre escDelim (escLT ++ X) = false) :
    processErrorsOne (escLT ++ X) = '<' :: processErrorsOne X := by
  have h1 : replaceAll escDelim delim (escLT ++ X) = escLT ++ replaceAll escDelim delim X := by
    exact replaceAll_skip_block
      ['u', '0', '0', '3', 'C', 'S', 'P', 'A', 'C', 'E', '\\', 'u', '0', '0', '3', 'E']
      delim ['u', '0', '0', '3', 'C'] X (by decide) hm
  have h2 : replaceAll escLT ['<'] (escLT ++ replaceAll escDelim delim X) =
      '<' :: replaceAll escLT ['<'] (replaceAll escDelim delim X) :=
    replaceAll_match escLT ['<'] _ (by decide)
  have h3 : ∀ Z, replaceAll escGT ['>'] ('<' :: Z) = '<' :: replaceAll escGT ['>'] Z := by
    intro Z
    exact replaceAll_cons_neg _ _ _ _ (isPre_cons_neq '\\' '<' _ _ (by decide))
  have h4 : ∀ Z, replaceAll escAP ['\''] ('<' :: Z) = '<' :: replaceAll escAP ['\''] Z := by
    intro Z
    exact replaceAll_cons_neg _ _ _ _ (isPre_cons_neq '\\' '<' _ _ (by decide))
  rw [processErrorsOne_eq, processErrorsOne_eq, h1, h2, h3, h4]

/-- Decoding a string that starts with the escaped `>` yields a literal
`>` and the decoding of the rest. -/
theorem decode_block_gt (X : List Char) :
    processErrorsOne (escGT ++ X) = '>' :: processErrorsOne X := by
  have h1 : replaceAll escDelim delim (escGT ++ X) = escGT ++ replaceAll escDelim delim X :=
    replaceAll_skip_block
      ['u', '0', '0', '3', 'C', 'S', 'P', 'A', 'C', 'E', '\\', 'u', '0', '0', '3', 'E']
      delim ['u', '0', '0', '3', 'E'] X (by decide)
      (isPre_escDelim_escGT X)
  have h2 : replaceAll escLT ['<'] (escGT ++ replaceAll escDelim delim X) =
      escGT ++ replaceAll escLT ['<'] (replaceAll escDelim delim X) :=
    replaceAll_skip_block ['u', '0', '0', '3', 'C'] ['<']
      ['u', '0', '0', '3', 'E'] (replaceAll escDelim delim X) (by decide)
      (isPre_escLT_escGT _)
  have h3 : replaceAll escGT ['>']
        (escGT ++ replaceAll escLT ['<'] (replaceAll escDelim delim X)) =
      '>' :: replaceAll escGT ['>'] (replaceAll escLT ['<'] (replaceAll escDelim delim X)) :=
    replaceAll_match escGT ['>'] _ (by decide)
  have h4 : ∀ Z, replaceAll escAP ['\''] ('>' :: Z) = '>' :: replaceAll escAP ['\''] Z := by
    intro Z
    exact replaceAll_cons_neg _ _ _ _ (isPre_cons_neq '\\' '>' _ _ (by decide))
  rw [processErrorsOne_eq, processErrorsOne_eq, h1, h2, h3, h4]

/-- Decoding a string that starts with the escaped apostrophe yields a
literal apostrophe and the decoding of the rest. -/
theorem decode_block_ap (X : List Char) :
    processErrorsOne (escAP ++ X) = '\'' :: processErrorsOne X := by
  have h1 : replaceAll escDelim delim (escAP ++ X) = escAP ++ replaceAll escDelim delim X :=
    replaceAll_skip_block
      ['u', '0', '0', '3', 'C', 'S', 'P', 'A', 'C', 'E', '\\', 'u', '0', '0', '3', 'E']
      delim ['u', '0', '0', '2', '7'] X (by decide)
      (isPre_escDelim_escAP X)
  have h2 : replaceAll escLT ['<'] (escAP ++ replaceAll escDelim delim X) =
      escAP ++ replaceAll escLT ['<'] (replaceAll escDelim delim X) :=
    replaceAll_skip_block ['u', '0', '0', '3', 'C'] ['<']
      ['u', '0', '0', '2', '7'] (replaceAll escDelim delim X) (by decide)
      (isPre_escLT_escAP _)
  have h3 : replaceAll escGT ['>']
        (escAP ++ replaceAll escLT ['<'] (replaceAll escDelim delim X)) =
      escAP ++ replaceAll escGT ['>'] (replaceAll escLT ['<'] (replaceAll escDelim delim X)) :=
    replaceAll_skip_block ['u', '0', '0', '3', 'E'] ['>']
      ['u', '0', '0', '2', '7'] _ (by decide) (isPre_escGT_escAP _)
  have h4 : replaceAll escAP ['\'']
        (escAP ++ replaceAll escGT ['>'] (replaceAll escLT ['<'] (replaceAll escDelim delim X))) =
      '\'' :: replaceAll escAP ['\'']
        (replaceAll escGT ['>'] (replaceAll escLT ['<'] (replaceAll escDelim delim X))) :=
    replaceAll_match escAP ['\''] _ (by decide)
  rw [processErrorsOne_eq, processErrorsOne_eq, h1, h2, h3, h4]

/-- Decoding a string that starts with the full escaped delimiter yields
the literal delimiter token and the decoding of the rest. -/
theorem decode_block_delim (X : List Char) :
    processErrorsOne (escDelim ++ X) = delim ++ processErrorsOne X := by
  have h1 : replaceAll escDelim delim (escDelim ++ X) = delim ++ replaceAll escDelim delim X :=
    replaceAll_match escDelim delim _ (by decide)
  have hnb : ∀ c ∈ delim, c ≠ '\\' := by decide
  have h2 := replaceAll_skip_noBS (['u', '0', '0', '3', 'C']) (['<']) delim
    (replaceAll escDelim delim X) hnb
  have h3 := replaceAll_skip_noBS (['u', '0', '0', '3', 'E']) (['>']) delim
    (replaceAll escLT ['<'] (replaceAll escDelim delim X)) hnb
  have h4 := replaceAll_skip_noBS (['u', '0', '0', '2', '7']) (['\'']) delim
    (replaceAll escGT ['>'] (replaceAll escLT ['<'] (replaceAll escDelim delim X))) hnb
  rw [processErrorsOne_eq, processErrorsOne_eq, h1]
  rw [show replaceAll escLT ['<'] (delim ++ replaceAll escDelim delim X) =
      delim ++ replaceAll escLT ['<'] (replaceAll escDelim delim X) from h2]
  rw [show replaceAll escGT ['>']
        (delim ++ replaceAll escLT ['<'] (replaceAll escDelim delim X)) =
      delim ++ replaceAll escGT ['>'] (replaceAll escLT ['<'] (replaceAll escDelim delim X))
      from h3]
  rw [show replaceAll escAP ['\'']
        (delim ++ replaceAll escGT ['>'] (replaceAll escLT ['<'] (replaceAll escDelim delim X))) =
      delim ++ replaceAll escAP ['\'']
        (replaceAll escGT ['>'] (replaceAll escLT ['<'] (replaceAll escDelim delim X)))
      from h4]

/-- Decoding passes an ordinary (non-backslash) character through. -/
theorem decode_block_ord (c : Char) (hc : c ≠ '\\') (X : List Char) :
    processErrorsOne (c :: X) = c :: processErrorsOne X := by
  have hne : ∀ pt : List Char, ∀ Z : List Char, ∀ rep : List Char,
      replaceAll ('\\' :: pt) rep (c :: Z) = c :: replaceAll ('\\' :: pt) rep Z := by
    intro pt Z rep
    exact replaceAll_cons_neg _ _ _ _ (isPre_cons_neq '\\' c _ _ (fun h => hc h.symm))
  rw [processErrorsOne_eq, processErrorsOne_eq]
  rw [show replaceAll escDelim delim (c :: X) = c :: replaceAll escDelim delim X from hne _ _ _]
  rw [show replaceAll escLT ['<'] (c :: replaceAll escDelim delim X) =
      c :: replaceAll escLT ['<'] (replaceAll escDelim delim X) from hne _ _ _]
  rw [show replaceAll escGT ['>'] (c :: replaceAll escLT ['<'] (replaceAll escDelim delim X)) =
      c :: replaceAll escGT ['>'] (replaceAll escLT ['<'] (replaceAll escDelim delim X))
      from hne _ _ _]
  rw [show replaceAll escAP ['\'']
        (c :: replaceAll escGT ['>'] (replaceAll escLT ['<'] (replaceAll escDelim delim X))) =
      c :: replaceAll escAP ['\'']
        (replaceAll escGT ['>'] (replaceAll escLT ['<'] (replaceAll escDelim delim X)))
      from hne _ _ _]

/-- Decoding the encoding of a backslash-free string recovers the
string (auxiliary form, by strong induction on the length). -/
theorem decode_encode_aux :
    ∀ n, ∀ s : List Char, s.length ≤ n → (∀ c ∈ s, c ≠ '\\') →
      processErrorsOne (encodeErrorString s) = s := by
  intro n
  induction n with
  | zero =>
    intro s hs _
    have : s = [] := List.length_eq_zero.mp (Nat.le_zero.mp hs)
    subst this
    simp [processErrorsOne_eq, encodeErrorString, replaceAll_nil]
  | succ n ih =>
    intro s hs hbs
    by_cases hd : isPre delim s = true
    · have hsplit := isPre_extract delim s hd
      have hlen : (s.drop delim.length).length ≤ n := by
        have := List.length_drop delim.length s
        have hpos : 0 < delim.length := by decide
        omega
      have hbt : ∀ c ∈ s.drop delim.length, c ≠ '\\' :=
        fun c hc => hbs c (List.mem_of_mem_drop hc)
      conv_lhs => rw [hsplit]
      rw [encodeErrorString_append, encodeErrorString_delim, decode_block_delim,
        ih _ hlen hbt]
      exact hsplit.symm
    · cases s with
      | nil => simp [processErrorsOne_eq, encodeErrorString, replaceAll_nil]
      | cons c t =>
        have hbt : ∀ x ∈ t, x ≠ '\\' := fun x hx => hbs x (by simp [hx])
        have hct : t.length ≤ n := by
          simp only [List.length_cons] at hs
          omega
        have iht := ih t hct hbt
        have hc : c ≠ '\\' := hbs c (by simp)
        by_cases h1 : c = '<'
        · subst h1
          have hdf : isPre delim ('<' :: t) = false := by
            cases h : isPre delim ('<' :: t) with
            | true => exact absurd h hd
            | false => rfl
          have hsp : isPre ('S' :: 'P' :: 'A' :: 'C' :: 'E' :: ['>']) t = false := by
            rw [show delim = '<' :: ('S' :: 'P' :: 'A' :: 'C' :: 'E' :: ['>']) from rfl,
              isPre_cons_cons, if_pos rfl] at hdf
            exact hdf
          rw [encodeErrorString_cons, show encodeChar '<' = escLT from rfl,
            decode_block_lt _ (isPre_escDelim_encLT t hbt hsp), iht]
        · by_cases h2 : c = '>'
          · subst h2
            rw [encodeErrorString_cons, show encodeChar '>' = escGT from rfl,
              decode_block_gt, iht]
          · by_cases h3 : c = '\''
            · subst h3
              rw [encodeErrorString_cons, show encodeChar '\'' = escAP from rfl,
                decode_block_ap, iht]
            · rw [encodeErrorString_cons, encodeChar_ordinary c h1 h2 h3,
                List.cons_append, List.nil_append, decode_block_ord c hc, iht]

/-! ## Line framer -/

/-- Prepend a character to the first segment of a split result (the
inductive core of splitting on a separator). -/
def consChar (c : Char) : List (List Char) → List (List Char)
  | [] => [[c]]
  | r :: rs => (c :: r) :: rs

/-- The embedding of JavaScript `buffer.split('\n')`: the list of
newline-separated segments of `s`, always non-empty, the last segment
being the text after the final newline (possibly empty). -/
def splitNl : List Char → List (List Char)
  | [] => [[]]
  | c :: rest => if c = '\n' then [] :: splitNl rest else consChar c (splitNl rest)

/-- One run of the stdout drain's framing step (the source's
`const lines = this.stdoutBuffer.split('\n'); this.stdoutBuffer =
lines.pop() || ''`): the complete records (in arrival order) and the
retained final fragment. -/
def feedChunk (buf chunk : List Char) : List (List Char) × List Char :=
  (List.dropLast (splitNl (buf ++ chunk)), (splitNl (buf ++ chunk)).getLastD [])

/-- Feeding a sequence of chunks through the framer in order, starting
from the given retained fragment, collecting all complete records. -/
def feedChunks (buf : List Char) : List (List Char) → List (List Char) × List Char
  | [] => ([], buf)
  | c :: cs =>
    ((feedChunk buf c).1 ++ (feedChunks (feedChunk buf c).2 cs).1,
     (feedChunks (feedChunk buf c).2 cs).2)

/-- Append a fragment to the front of the first segment of a split
result. -/
def consHead (x : List Char) : List (List Char) → List (List Char)
  | [] => [x]
  | y :: ys => (x ++ y) :: ys

theorem splitNl_ne_nil : ∀ s : List Char, splitNl s ≠ [] := by
  intro s
  cases s with
  | nil => simp [splitNl]
  | cons c rest =>
    simp only [splitNl]
    by_cases h : c = '\n'
    · rw [if_pos h]
      simp
    · rw [if_neg h]
      cases splitNl rest <;> simp [consChar]

theorem getLastD_append {α : Type} (l₁ : List α) (b : α) (l₂ : List α) (d : α) :
    (l₁ ++ b :: l₂).getLastD d = (b :: l₂).getLastD d := by
  induction l₁ generalizing d with
  | nil => rfl
  | cons x xs ih =>
    rw [List.cons_append, List.getLastD_cons, ih x, List.getLastD_cons, List.getLastD_cons]

theorem consHead_nil_left (M : List (List Char)) (h : M ≠ []) : consHead [] M = M := by
  cases M with
  | nil => exact absurd rfl h
  | cons y ys => simp [consHead]

theorem consChar_consHead (c : Char) (x : List Char) (M : List (List Char)) :
    consChar c (consHead x M) = consHead (c :: x) M := by
  cases M <;> simp [consChar, consHead]

/-- The split of a concatenation: the left part's segments, with the
left part's trailing fragment merged into the right part's first
segment. -/
theorem splitNl_append (a b : List Char) :
    splitNl (a ++ b) =
      List.dropLast (splitNl a) ++ consHead ((splitNl a).getLastD []) (splitNl b) := by
  induction a with
  | nil =>
    rw [List.nil_append]
    show splitNl b =
      List.dropLast [[]] ++ consHead (List.getLastD [[]] []) (splitNl b)
    rw [List.dropLast_single, List.getLastD_cons, List.getLastD_nil, List.nil_append,
      consHead_nil_left _ (splitNl_ne_nil b)]
  | cons c a' ih =>
    by_cases h : c = '\n'
    · have hL : ∀ X : List Char, splitNl (c :: X) = [] :: splitNl X := by
        intro X
        simp only [splitNl]
        rw [if_pos h]
      rw [List.cons_append, hL, hL, ih]
      cases hA : splitNl a' with
      | nil => exact absurd hA (splitNl_ne_nil a')
      | cons r rs =>
        simp only [List.dropLast_cons₂, List.getLastD_cons, List.cons_append]
    · have hL : ∀ X : List Char, splitNl (c :: X) = consChar c (splitNl X) := by
        intro X
        simp only [splitNl]
        rw [if_neg h]
      rw [List.cons_append, hL, hL, ih]
      cases hA : splitNl a' with
      | nil => exact absurd hA (splitNl_ne_nil a')
      | cons r rs =>
        cases rs with
        | nil =>
          rw [show consChar c [r] = [c :: r] from rfl]
          simp only [List.dropLast_single, List.nil_append, List.getLastD_cons,
            List.getLastD_nil]
          rw [consChar_consHead]
        | cons r2 rs' =>
          simp only [consChar, List.dropLast_cons₂, List.getLastD_cons, List.cons_append]

/-- A newline-free fragment prepends onto the first segment of the
split of what follows it. -/
theorem splitNl_noNl (x b : List Char) (hx : ∀ c ∈ x, c ≠ '\n') :
    splitNl (x ++ b) = consHead x (splitNl b) := by
  induction x with
  | nil => rw [List.nil_append, consHead_nil_left _ (splitNl_ne_nil b)]
  | cons c x' ih =>
    have hc : c ≠ '\n' := hx c (by simp)
    rw [List.cons_append, show splitNl (c :: (x' ++ b)) = consChar c (splitNl (x' ++ b)) by
      simp only [splitNl]; rw [if_neg hc]]
    rw [ih (fun y hy => hx y (by simp [hy])), consChar_consHead]

/-- No segment produced by the split contains a newline. -/
theorem splitNl_segs_noNl : ∀ s : List Char, ∀ seg ∈ splitNl s, ∀ c ∈ seg, c ≠ '\n' := by
  intro s
  induction s with
  | nil =>
    intro seg hseg
    simp only [splitNl, List.mem_singleton] at hseg
    simp [hseg]
  | cons c0 rest ih =>
    intro seg hseg c hc
    simp only [splitNl] at hseg
    by_cases h : c0 = '\n'
    · rw [if_pos h] at hseg
      rcases List.mem_cons.mp hseg with h1 | h1
      · subst h1
        simp at hc
      · exact ih seg h1 c hc
    · rw [if_neg h] at hseg
      cases hR : splitNl rest with
      | nil => exact absurd hR (splitNl_ne_nil rest)
      | cons r rs =>
        rw [hR] at hseg
        simp only [consChar] at hseg
        rcases List.mem_cons.mp hseg with h1 | h1
        · subst h1
          rcases List.mem_cons.mp hc with h2 | h2
          · subst h2
            exact h
          · exact ih r (by rw [hR]; simp) c h2
        · exact ih seg (by rw [hR]; simp [h1]) c hc

theorem getLastD_mem {α : Type} : ∀ (l : List α) (d : α), l ≠ [] → l.getLastD d ∈ l := by
  intro l
  induction l with
  | nil => intro d h; exact absurd rfl h
  | cons a t ih =>
    intro d _
    cases t with
    | nil => simp [List.getLastD_cons, List.getLastD_nil]
    | cons b u =>
      rw [List.getLastD_cons]
      exact List.mem_cons_of_mem a (ih a (by simp))

/-- The retained fragment after a drain contains no newline. -/
theorem splitNl_lastD_noNl (s : List Char) : ∀ c ∈ (splitNl s).getLastD [], c ≠ '\n' :=
  fun c hc => splitNl_segs_noNl s _ (getLastD_mem _ [] (splitNl_ne_nil s)) c hc

/-- Framing composes: feeding `a ++ b` at once equals feeding `a` then
`b`, concatenating the records. -/
theorem feedChunk_append (buf a b : List Char) :
    feedChunk buf (a ++ b) =
      ((feedChunk buf a).1 ++ (feedChunk (feedChunk buf a).2 b).1,
       (feedChunk (feedChunk buf a).2 b).2) := by
  have key : splitNl (buf ++ (a ++ b)) =
      List.dropLast (splitNl (buf ++ a)) ++
        consHead ((splitNl (buf ++ a)).getLastD []) (splitNl b) := by
    rw [← List.append_assoc]
    exact splitNl_append (buf ++ a) b
  have hfrag : splitNl ((splitNl (buf ++ a)).getLastD [] ++ b) =
      consHead ((splitNl (buf ++ a)).getLastD []) (splitNl b) :=
    splitNl_noNl _ b (splitNl_lastD_noNl (buf ++ a))
  simp only [feedChunk, key, hfrag]
  rw [Prod.mk.injEq]
  constructor
  · cases hM : consHead ((splitNl (buf ++ a)).getLastD []) (splitNl b) with
    | nil =>
      exfalso
      cases hM2 : splitNl b with
      | nil => exact absurd hM2 (splitNl_ne_nil b)
      | cons y ys => rw [hM2] at hM; simp [consHead] at hM
    | cons y ys => rw [List.dropLast_append_cons]
  · cases hM : consHead ((splitNl (buf ++ a)).getLastD []) (splitNl b) with
    | nil =>
      exfalso
      cases hM2 : splitNl b with
      | nil => exact absurd hM2 (splitNl_ne_nil b)
      | cons y ys => rw [hM2] at hM; simp [consHead] at hM
    | cons y ys => rw [getLastD_append]

/-- Feeding a non-empty chunk sequence equals feeding its concatenation
at once. -/
theorem feedChunks_join (chunks : List (List Char)) (hne : chunks ≠ []) :
    ∀ buf, feedChunks buf chunks = feedChunk buf chunks.flatten := by
  induction chunks with
  | nil => exact absurd rfl hne
  | cons c cs ih =>
    intro buf
    cases cs with
    | nil =>
      show ((feedChunk buf c).1 ++ ([] : List (List Char)), (feedChunk buf c).2) = _
      rw [List.append_nil, show ([c] : List (List Char)).flatten = c ++ [] from rfl,
        List.append_nil]
    | cons c2 cs' =>
      show ((feedChunk buf c).1 ++ (feedChunks (feedChunk buf c).2 (c2 :: cs')).1,
        (feedChunks (feedChunk buf c).2 (c2 :: cs')).2) = _
      rw [ih (by simp) (feedChunk buf c).2]
      have hsplit := feedChunk_append buf c (c2 :: cs').flatten
      rw [show (c :: c2 :: cs').flatten = c ++ (c2 :: cs').flatten from rfl, hsplit]

/-! ## Diagnostics mapping -/

/-- Index of the leftmost occurrence of the literal pattern `pat` in
`s`, if any. -/
def findSub (pat : List Char) : List Char → Option Nat
  | [] => if isPre pat [] = true then some 0 else none
  | c :: rest =>
    if isPre pat (c :: rest) = true then some 0
    else (findSub pat rest).map (· + 1)

/-- JavaScript `s.split(pat)` for a literal pattern: the segments
between leftmost, non-overlapping occurrences of `pat`. -/
def splitOnSub (pat : List Char) : List Char → List (List Char)
  | [] => [[]]
  | c :: rest =>
    if h : isPre pat (c :: rest) = true ∧ pat ≠ [] then
      [] :: splitOnSub pat (List.drop pat.length (c :: rest))
    else consChar c (splitOnSub pat rest)
termination_by s => s.length
decreasing_by
  · have hp : 0 < pat.length := List.length_pos.mpr h.2
    simp only [List.length_drop, List.length_cons]
    omega
  · simp

theorem splitOnSub_nil (pat : List Char) : splitOnSub pat [] = [[]] := by
  rw [splitOnSub]

theorem splitOnSub_cons_pos (pat : List Char) (c : Char) (rest : List Char)
    (h1 : isPre pat (c :: rest) = true) (h2 : pat ≠ []) :
    splitOnSub pat (c :: rest) =
      [] :: splitOnSub pat (List.drop pat.length (c :: rest)) := by
  rw [splitOnSub, dif_pos ⟨h1, h2⟩]

theorem splitOnSub_cons_neg (pat : List Char) (c : Char) (rest : List Char)
    (h : isPre pat (c :: rest) = false) :
    splitOnSub pat (c :: rest) = consChar c (splitOnSub pat rest) := by
  rw [splitOnSub, dif_neg]
  intro hc
  rw [h] at hc
  exact absurd hc.1 (by simp)

theorem consChar_ne_nil (c : Char) (M : List (List Char)) : consChar c M ≠ [] := by
  cases M <;> simp [consChar]

theorem splitOnSub_ne_nil (pat : List Char) : ∀ s, splitOnSub pat s ≠ [] := by
  intro s
  cases s with
  | nil => rw [splitOnSub_nil]; simp
  | cons c rest =>
    by_cases h : isPre pat (c :: rest) = true ∧ pat ≠ []
    · rw [splitOnSub_cons_pos pat c rest h.1 h.2]
      simp
    · rw [splitOnSub, dif_neg h]
      exact consChar_ne_nil c _

/-- With no occurrence of the pattern, the split is the whole string. -/
theorem splitOnSub_of_none :
    ∀ n, ∀ s : List Char, s.length ≤ n → ∀ pat, pat ≠ [] →
      findSub pat s = none → splitOnSub pat s = [s] := by
  intro n
  induction n with
  | zero =>
    intro s hs pat hp _
    have : s = [] := List.length_eq_zero.mp (Nat.le_zero.mp hs)
    subst this
    exact splitOnSub_nil pat
  | succ n ih =>
    intro s hs pat hp hf
    cases s with
    | nil => exact splitOnSub_nil pat
    | cons c rest =>
      simp only [findSub] at hf
      by_cases h1 : isPre pat (c :: rest) = true
      · rw [if_pos h1] at hf
        exact absurd hf (by simp)
      · have h1f : isPre pat (c :: rest) = false := by
          cases h2 : isPre pat (c :: rest) with
          | true => exact absurd h2 h1
          | false => rfl
        rw [if_neg h1] at hf
        have hr : findSub pat rest = none := by
          cases h2 : findSub pat rest with
          | none => rfl
          | some j => rw [h2] at hf; simp at hf
        rw [splitOnSub_cons_neg pat c rest h1f,
          ih rest (by simp only [List.length_cons] at hs; omega) pat hp hr]
        rfl

/-- With a leftmost occurrence at `i`, the split is the prefix before
`i` followed by the split of what comes after the occurrence. -/
theorem splitOnSub_of_some :
    ∀ n, ∀ s : List Char, s.length ≤ n → ∀ pat, pat ≠ [] → ∀ i,
      findSub pat s = some i →
      splitOnSub pat s = s.take i :: splitOnSub pat (s.drop (i + pat.length)) := by
  intro n
  induction n with
  | zero =>
    intro s hs pat hp i hf
    have : s = [] := List.length_eq_zero.mp (Nat.le_zero.mp hs)
    subst this
    simp only [findSub] at hf
    cases pat with
    | nil => exact absurd rfl hp
    | cons p ps => rw [isPre_cons_nil, if_neg (by simp)] at hf; exact absurd hf (by simp)
  | succ n ih =>
    intro s hs pat hp i hf
    cases s with
    | nil =>
      simp only [findSub] at hf
      cases pat with
      | nil => exact absurd rfl hp
      | cons p ps => rw [isPre_cons_nil, if_neg (by simp)] at hf; exact absurd hf (by simp)
    | cons c rest =>
      simp only [findSub] at hf
      by_cases h1 : isPre pat (c :: rest) = true
      · rw [if_pos h1] at hf
        have hi : i = 0 := by
          have := Option.some.inj hf
          omega
        subst hi
        rw [splitOnSub_cons_pos pat c rest h1 hp]
        simp
      · have h1f : isPre pat (c :: rest) = false := by
          cases h2 : isPre pat (c :: rest) with
          | true => exact absurd h2 h1
          | false => rfl
        rw [if_neg h1] at hf
        cases h2 : findSub pat rest with
        | none => rw [h2] at hf; simp at hf
        | some j =>
          rw [h2] at hf
          have hi : i = j + 1 := by
            simp at hf
            omega
          subst hi
          rw [splitOnSub_cons_neg pat c rest h1f,
            ih rest (by simp only [List.length_cons] at hs; omega) pat hp j h2]
          simp only [consChar, List.take_succ_cons, List.drop_succ_cons]
          rw [show j + 1 + pat.length = (j + pat.length) + 1 by omega, List.drop_succ_cons]

/-- The first segment of a split, stated directly through `findSub`. -/
def firstSeg (pat t : List Char) : List Char :=
  match findSub pat t with
  | none => t
  | some j => t.take j

theorem splitOnSub_head (pat : List Char) (hp : pat ≠ []) (t : List Char) :
    ∃ rest, splitOnSub pat t = firstSeg pat t :: rest := by
  cases hf : findSub pat t with
  | none =>
    refine ⟨[], ?_⟩
    rw [splitOnSub_of_none t.length t le_rfl pat hp hf]
    simp [firstSeg, hf]
  | some j =>
    refine ⟨splitOnSub pat (t.drop (j + pat.length)), ?_⟩
    rw [splitOnSub_of_some t.length t le_rfl pat hp j hf]
    simp [firstSeg, hf]

/-- Accumulating value of a run of decimal digits (the scanning loop of
`parseInt`). -/
def digitsAcc (acc : Nat) : List Char → Nat
  | [] => acc
  | c :: rest => if c.isDigit then digitsAcc (acc * 10 + (c.toNat - 48)) rest else acc

/-- Value of the longest leading run of decimal digits, `none` when the
first character is not a digit. -/
def digitsVal : List Char → Option Nat
  | [] => none
  | c :: rest => if c.isDigit then some (digitsAcc (c.toNat - 48) rest) else none

/-- The embedding of JavaScript `parseInt(s, 10)`: skip leading
whitespace, accept an optional sign, then the longest digit run;
`none` models `NaN` (no digits found). -/
def jsParseInt (s : List Char) : Option Int :=
  match s.dropWhile Char.isWhitespace with
  | '-' :: u => (digitsVal u).map (fun n => -(n : Int))
  | '+' :: u => (digitsVal u).map (fun n => (n : Int))
  | u => (digitsVal u).map (fun n => (n : Int))

/-- A produced VS Code diagnostic: the range endpoints and the message
(severity is always Error in the source). -/
structure Diag where
  startLine : Nat
  startChar : Nat
  endLine : Nat
  endChar : Nat
  message : List Char
deriving DecidableEq, Repr

/-- VS Code's `firstNonWhitespaceCharacterIndex` of a line of text
(the length of the line when it is all whitespace). -/
def firstNonWsIndex (l : List Char) : Nat := (l.takeWhile Char.isWhitespace).length

/-- The source's clamp `Math.max(0, Math.min(parsedLine - 1, lineCount - 1))`. -/
def clampLine (parsedLine : Int) (lineCount : Nat) : Nat :=
  (max 0 (min (parsedLine - 1) ((lineCount : Int) - 1))).toNat

/-- `TgsParser.parseErrorsToDiagnostics`: one diagnostic per error
string.  A string with the delimiter and a parsable line number becomes
a diagnostic on the clamped 0-based line, spanning from the line's
first non-whitespace character to its end; anything else becomes a
whole-document diagnostic with range `(0,0)-(0,1)` carrying the full
string.  The document is modelled by its list of lines. -/
def parseErrorsToDiagnostics (errors : List (List Char)) (docLines : List (List Char)) :
    List Diag :=
  errors.map (fun error =>
    match (splitOnSub delim error).take 2 with
    | [p0, p1] =>
      match jsParseInt p0 with
      | none => ⟨0, 0, 0, 1, error⟩
      | some n =>
        ⟨clampLine n docLines.length,
          firstNonWsIndex (docLines.getD (clampLine n docLines.length) []),
          clampLine n docLines.length,
          (docLines.getD (clampLine n docLines.length) []).length,
          p1⟩
    | _ => ⟨0, 0, 0, 1, error⟩)

/-- Without the delimiter, a whole-document diagnostic carrying the
full string is produced. -/
theorem parseDiag_no_delim (e : List Char) (doc : List (List Char))
    (h : findSub delim e = none) :
    parseErrorsToDiagnostics [e] doc = [⟨0, 0, 0, 1, e⟩] := by
  have hp : delim ≠ [] := by simp [delim]
  simp only [parseErrorsToDiagnostics, List.map_cons, List.map_nil]
  rw [splitOnSub_of_none e.length e le_rfl delim hp h]
  rfl

/-- With the delimiter present but an unparsable line-number part, a
whole-document diagnostic carrying the full string is produced. -/
theorem parseDiag_bad_int (e : List Char) (doc : List (List Char)) (i : Nat)
    (h : findSub delim e = some i) (hn : jsParseInt (e.take i) = none) :
    parseErrorsToDiagnostics [e] doc = [⟨0, 0, 0, 1, e⟩] := by
  have hp : delim ≠ [] := by simp [delim]
  simp only [parseErrorsToDiagnostics, List.map_cons, List.map_nil]
  rw [splitOnSub_of_some e.length e le_rfl delim hp i h]
  obtain ⟨rest, hrest⟩ := splitOnSub_head delim hp (e.drop (i + delim.length))
  rw [hrest]
  simp [hn]

/-- With the delimiter present and a parsable line-number part, a
single diagnostic at the clamped line is produced whose message is the
segment between the first and second delimiter occurrences. -/
theorem parseDiag_int (e : List Char) (doc : List (List Char)) (i : Nat) (n : Int)
    (h : findSub delim e = some i) (hn : jsParseInt (e.take i) = some n) :
    parseErrorsToDiagnostics [e] doc =
      [⟨clampLine n doc.length,
        firstNonWsIndex (doc.getD (clampLine n doc.length) []),
        clampLine n doc.length,
        (doc.getD (clampLine n doc.length) []).length,
        firstSeg delim (e.drop (i + delim.length))⟩] := by
  have hp : delim ≠ [] := by simp [delim]
  simp only [parseErrorsToDiagnostics, List.map_cons, List.map_nil]
  rw [splitOnSub_of_some e.length e le_rfl delim hp i h]
  obtain ⟨rest, hrest⟩ := splitOnSub_head delim hp (e.drop (i + delim.length))
  rw [hrest]
  simp [hn]


/-! ## Wire messages and caller-visible outputs -/

/-- The decoded worker response (`ParseResult` in the source). -/
structure ParseResult where
  success : Bool
  errors : List (List Char)
  schemas : Option Nat
  enums : Option Nat
  imports : Option Nat
  file : Option (List Char)
deriving DecidableEq, Repr

/-- Error kinds with which pending work can fail (the distinct `Error`
messages constructed by the source). -/
inductive ErrKind where
  /-- "Request cancelled - newer request" (single-slot supersession). -/
  | superseded
  /-- "Failed to send request: ..." (stdin write callback error). -/
  | writeFailed
  /-- "Daemon process closed (code ...)" (unexpected `close`). -/
  | processExited
  /-- "Typegen command not found ..." (`error` with `ENOENT`). -/
  | spawnFailed
  /-- "Daemon error: ..." (`error` without `ENOENT`). -/
  | daemonError
  /-- "Daemon startup timeout ..." (no ready record in time). -/
  | startupTimeout
  /-- "Typegen daemon disposed." (`dispose`). -/
  | disposed
deriving DecidableEq, Repr

/-- Caller-visible effects of one step: continuation calls, wire
writes, process actions, log lines. -/
inductive Out where
  /-- A caller's `resolve` continuation is invoked with a result. -/
  | resolve (cid : Nat) (r : ParseResult)
  /-- A caller's `reject` continuation is invoked with an error. -/
  | reject (cid : Nat) (e : ErrKind)
  /-- A line is written to the child's stdin. -/
  | wireWrite (line : List Char)
  /-- A fresh daemon process is spawned (`startDaemon`). -/
  | spawnDaemon
  /-- The daemon process is killed. -/
  | killDaemon
  /-- The in-flight `startDaemon` promise resolves (readiness). -/
  | initResolved
  /-- The in-flight `startDaemon` promise rejects. -/
  | initRejected (e : ErrKind)
  /-- A line is logged to the output channel and discarded. -/
  | logLine (line : List Char)
deriving DecidableEq, Repr

/-- A decoded inbound record: the readiness handshake or a result. -/
inductive Msg where
  | ready
  | result (r : ParseResult)
deriving DecidableEq, Repr

/-- The source's `if (result.errors?.length) result.errors =
this.processErrors(result.errors)` applied before resolving. -/
def postResult (r : ParseResult) : ParseResult :=
  if r.errors ≠ [] then { r with errors := processErrors r.errors } else r

/-- `line.trim()` is empty: the record is blank and skipped. -/
def isBlank (l : List Char) : Bool := l.all Char.isWhitespace

/-! ## FIFO-queue-with-dedup variant (`vscode-extension/src/extension.ts`) -/

/-- One entry of `requestQueue`: its key (`filePath`) and the caller
continuations attached to it (more than one after dedup coalescing).
`eid` is ghost instrumentation numbering entries in submission order. -/
structure Entry where
  key : List Char
  callers : List Nat
  eid : Nat
deriving DecidableEq, Repr

/-- The mutable state of the FIFO-variant `TgsParser`.  `wireOut`,
`nextId`, `sentIds` and `answeredIds` are ghost instrumentation:
`wireOut` counts lines written to stdin but not yet answered by a
result record; `sentIds`/`answeredIds` record entry ids in the order
wire requests were sent and answered. -/
structure FifoState where
  isDaemonReady : Bool
  procAlive : Bool
  stdoutBuffer : List Char
  requestQueue : List Entry
  pendingKeys : List (List Char)
  initPromise : Bool
  wireOut : Nat
  nextId : Nat
  sentIds : List Nat
  answeredIds : List Nat
deriving DecidableEq, Repr

/-- `TgsParser.parseFile` of the FIFO variant, one caller submission.
When the daemon is not ready the call starts (or joins) initialization
and the submission is suspended awaiting it; when ready, a duplicate
key attaches the new caller to the existing entry (no queue entry, no
write), and a fresh key enqueues an entry and writes `filePath + '\n'`
to stdin. -/
def parseFileF (s : FifoState) (cid : Nat) (key : List Char) : FifoState × List Out :=
  if ¬ (s.isDaemonReady = true ∧ s.procAlive = true) then
    if s.initPromise then (s, []) else ({ s with initPromise := true }, [Out.spawnDaemon])
  else if s.pendingKeys.contains key then
    ({ s with requestQueue := s.requestQueue.map fun e =>
        if e.key = key then { e with callers := e.callers ++ [cid] } else e }, [])
  else
    ({ s with
        requestQueue := s.requestQueue ++ [⟨key, [cid], s.nextId⟩],
        pendingKeys := s.pendingKeys ++ [key],
        wireOut := s.wireOut + 1,
        nextId := s.nextId + 1,
        sentIds := s.sentIds ++ [s.nextId] },
     [Out.wireWrite (key ++ ['\n'])])

/-- Routing of a decoded result record in the FIFO variant: the head of
`requestQueue` is shifted and resolved (all attached callers get the
post-processed result); with an empty queue the record is dropped. -/
def resultStepF (s : FifoState) (r : ParseResult) : FifoState × List Out :=
  match s.requestQueue with
  | [] => (s, [])
  | e :: rest =>
    ({ s with
        requestQueue := rest,
        pendingKeys := s.pendingKeys.filter (fun k => ¬ k = e.key),
        wireOut := s.wireOut - 1,
        answeredIds := s.answeredIds ++ [e.eid] },
     e.callers.map fun c => Out.resolve c (postResult r))

/-- Handling of the readiness record: mark ready, resolve the in-flight
initialization. -/
def readyStepF (s : FifoState) : FifoState × List Out :=
  ({ s with isDaemonReady := true }, [Out.initResolved])

/-- The rejections delivered when every pending entry fails at once
(`rejectAllPending`). -/
def rejectAllOuts (q : List Entry) (k : ErrKind) : List Out :=
  q.flatMap fun e => e.callers.map fun c => Out.reject c k

/-- The `close` handler: not-ready, handle cleared, all pending
rejected, the initialization promise rejected and cleared. -/
def closeStepF (s : FifoState) : FifoState × List Out :=
  ({ s with
      isDaemonReady := false,
      procAlive := false,
      requestQueue := [],
      pendingKeys := [],
      initPromise := false },
   rejectAllOuts s.requestQueue .processExited ++ [Out.initRejected .processExited])

/-- The `error` handler: as `close`, with the `ENOENT` distinction. -/
def errorStepF (s : FifoState) (enoent : Bool) : FifoState × List Out :=
  ({ s with
      isDaemonReady := false,
      procAlive := false,
      requestQueue := [],
      pendingKeys := [],
      initPromise := false },
   rejectAllOuts s.requestQueue (if enoent then .spawnFailed else .daemonError) ++
     [Out.initRejected (if enoent then .spawnFailed else .daemonError)])

/-- The startup deadline in milliseconds (`setTimeout(..., 10000)`). -/
def startupTimeoutMs : Nat := 10000

/-- The startup-timeout callback: a no-op once ready; otherwise the
child is killed, the session marked not-ready, the handle and the
initialization promise cleared, and `initialize()` rejected. -/
def timeoutStepF (s : FifoState) : FifoState × List Out :=
  if s.isDaemonReady then (s, [])
  else
    ({ s with isDaemonReady := false, procAlive := false, initPromise := false },
     (if s.procAlive then [Out.killDaemon] else []) ++ [Out.initRejected .startupTimeout])

/-- `handleFailedRequest`: on a stdin write error the entry with the
failed key is removed from queue and map and rejected. -/
def writeErrStepF (s : FifoState) (key : List Char) : FifoState × List Out :=
  match s.requestQueue.find? (fun e => e.key = key) with
  | none => (s, [])
  | some e =>
    ({ s with
        requestQueue := s.requestQueue.eraseP (fun e2 => e2.key = key),
        pendingKeys := s.pendingKeys.filter (fun k => ¬ k = key) },
     e.callers.map fun c => Out.reject c .writeFailed)

/-- `dispose`: kill the child if any, reject all pending with the
disposed error, clear the initialization promise. -/
def disposeStepF (s : FifoState) : FifoState × List Out :=
  ({ s with
      isDaemonReady := false,
      procAlive := false,
      requestQueue := [],
      pendingKeys := [],
      initPromise := false },
   (if s.procAlive then [Out.killDaemon] else []) ++ rejectAllOuts s.requestQueue .disposed)

/-- Processing of one framed record in the FIFO drain loop: blank lines
skipped, JSON parse failures logged and discarded, the ready record and
result records routed.  `decode` abstracts `JSON.parse` composed with
the shape dispatch. -/
def processLineF (decode : List Char → Option Msg) (s : FifoState) (line : List Char) :
    FifoState × List Out :=
  if isBlank line then (s, [])
  else
    match decode line with
    | none => (s, [Out.logLine line])
    | some .ready => readyStepF s
    | some (.result r) => resultStepF s r

/-- The drain's `for (const line of lines)` loop over a record list. -/
def processLinesF (decode : List Char → Option Msg) :
    FifoState → List (List Char) → FifoState × List Out
  | s, [] => (s, [])
  | s, l :: rest =>
    ((processLinesF decode (processLineF decode s l).1 rest).1,
     (processLineF decode s l).2 ++ (processLinesF decode (processLineF decode s l).1 rest).2)

/-- Trace events of the FIFO variant. -/
inductive FEv where
  | submit (cid : Nat) (key : List Char)
  | resultRecord (r : ParseResult)
  | readyRecord
  | closeEv
  | errorEv (enoent : Bool)
  | timeoutEv
  | writeErrEv (key : List Char)
  | disposeEv
deriving DecidableEq, Repr

/-- One trace step of the FIFO variant. -/
def stepF (s : FifoState) : FEv → FifoState × List Out
  | .submit cid key => parseFileF s cid key
  | .resultRecord r => resultStepF s r
  | .readyRecord => readyStepF s
  | .closeEv => closeStepF s
  | .errorEv enoent => errorStepF s enoent
  | .timeoutEv => timeoutStepF s
  | .writeErrEv key => writeErrStepF s key
  | .disposeEv => disposeStepF s

/-- Running a trace, collecting all outputs. -/
def runF (s : FifoState) : List FEv → FifoState × List Out
  | [] => (s, [])
  | e :: es =>
    ((runF (stepF s e).1 es).1, (stepF s e).2 ++ (runF (stepF s e).1 es).2)

/-- The freshly constructed parser state. -/
def initF : FifoState :=
  ⟨false, false, [], [], [], false, 0, 0, [], []⟩

/-- The parser state right after a successful startup handshake. -/
def readyF : FifoState :=
  { initF with isDaemonReady := true, procAlive := true }


/-! ## Single-slot variant (the `TgsParser` with `currentRequest`) -/

/-- The single pending request of the slot variant: its key and the
caller continuation. -/
structure SlotReq where
  filePath : List Char
  cid : Nat
deriving DecidableEq, Repr

/-- The mutable state of the single-slot `TgsParser`. -/
structure SlotState where
  isDaemonReady : Bool
  procAlive : Bool
  stdoutBuffer : List Char
  currentRequest : Option SlotReq
  initPromise : Bool
deriving DecidableEq, Repr

/-- The shared submission path of `parseContent` and `parseFile` in the
slot variant: when not ready, start (or join) initialization and
suspend; when ready, reject any existing `currentRequest` with the
cancellation error, install the new request, and write `wireLine` to
stdin. -/
def submitSlot (s : SlotState) (cid : Nat) (fp : List Char) (wireLine : List Char) :
    SlotState × List Out :=
  if ¬ (s.isDaemonReady = true ∧ s.procAlive = true) then
    if s.initPromise then (s, []) else ({ s with initPromise := true }, [Out.spawnDaemon])
  else
    ({ s with currentRequest := some ⟨fp, cid⟩ },
     (match s.currentRequest with
      | some r => [Out.reject r.cid .superseded]
      | none => []) ++ [Out.wireWrite wireLine])

/-- `parseContent`: the wire line is the JSON request object followed by
a newline; the JSON encoding (`JSON.stringify`) is abstracted by
`encodeReq`. -/
def parseContentS (encodeReq : List Char → List Char → List Char) (s : SlotState)
    (cid : Nat) (content fp : List Char) : SlotState × List Out :=
  submitSlot s cid fp (encodeReq content fp ++ ['\n'])

/-- `parseFile` (no document): the wire line is the bare path followed
by a newline. -/
def parseFileS (s : SlotState) (cid : Nat) (fp : List Char) : SlotState × List Out :=
  submitSlot s cid fp (fp ++ ['\n'])

/-- Routing of a decoded result record in the slot variant: resolve and
clear `currentRequest` if present, drop the record otherwise. -/
def resultStepS (s : SlotState) (r : ParseResult) : SlotState × List Out :=
  match s.currentRequest with
  | none => (s, [])
  | some req =>
    ({ s with currentRequest := none }, [Out.resolve req.cid (postResult r)])

/-- Readiness record handling in the slot variant. -/
def readyStepS (s : SlotState) : SlotState × List Out :=
  ({ s with isDaemonReady := true }, [Out.initResolved])

/-- `rejectAllPending` of the slot variant: reject the current request
if any. -/
def rejectAllOutsS (cur : Option SlotReq) (k : ErrKind) : List Out :=
  match cur with
  | none => []
  | some r => [Out.reject r.cid k]

/-- The slot variant's `close` handler. -/
def closeStepS (s : SlotState) : SlotState × List Out :=
  ({ s with
      isDaemonReady := false,
      procAlive := false,
      currentRequest := none,
      initPromise := false },
   rejectAllOutsS s.currentRequest .processExited ++ [Out.initRejected .processExited])

/-- The slot variant's `error` handler. -/
def errorStepS (s : SlotState) (enoent : Bool) : SlotState × List Out :=
  ({ s with
      isDaemonReady := false,
      procAlive := false,
      currentRequest := none,
      initPromise := false },
   rejectAllOutsS s.currentRequest (if enoent then .spawnFailed else .daemonError) ++
     [Out.initRejected (if enoent then .spawnFailed else .daemonError)])

/-- The slot variant's startup-timeout callback. -/
def timeoutStepS (s : SlotState) : SlotState × List Out :=
  if s.isDaemonReady then (s, [])
  else
    ({ s with isDaemonReady := false, procAlive := false, initPromise := false },
     (if s.procAlive then [Out.killDaemon] else []) ++ [Out.initRejected .startupTimeout])

/-- The stdin write-error callback of the slot variant: reject and
clear the current request when its key matches the failed write. -/
def writeErrStepS (s : SlotState) (fp : List Char) : SlotState × List Out :=
  match s.currentRequest with
  | none => (s, [])
  | some r =>
    if r.filePath = fp then
      ({ s with currentRequest := none }, [Out.reject r.cid .writeFailed])
    else (s, [])

/-- The slot variant's `dispose`. -/
def disposeStepS (s : SlotState) : SlotState × List Out :=
  ({ s with
      isDaemonReady := false,
      procAlive := false,
      currentRequest := none,
      initPromise := false },
   (if s.procAlive then [Out.killDaemon] else []) ++
     rejectAllOutsS s.currentRequest .disposed)

/-- Processing of one framed record in the slot drain loop. -/
def processLineS (decode : List Char → Option Msg) (s : SlotState) (line : List Char) :
    SlotState × List Out :=
  if isBlank line then (s, [])
  else
    match decode line with
    | none => (s, [Out.logLine line])
    | some .ready => readyStepS s
    | some (.result r) => resultStepS s r

/-- The slot drain's loop over a record list. -/
def processLinesS (decode : List Char → Option Msg) :
    SlotState → List (List Char) → SlotState × List Out
  | s, [] => (s, [])
  | s, l :: rest =>
    ((processLinesS decode (processLineS decode s l).1 rest).1,
     (processLineS decode s l).2 ++ (processLinesS decode (processLineS decode s l).1 rest).2)

/-- Trace events of the slot variant (`encodeReq` abstracts
`JSON.stringify` for `parseContent` submissions). -/
inductive SEv where
  | submitContent (cid : Nat) (content fp : List Char)
  | submitFile (cid : Nat) (fp : List Char)
  | resultRecord (r : ParseResult)
  | readyRecord
  | closeEv
  | errorEv (enoent : Bool)
  | timeoutEv
  | writeErrEv (fp : List Char)
  | disposeEv
deriving DecidableEq, Repr

/-- One trace step of the slot variant. -/
def stepS (encodeReq : List Char → List Char → List Char) (s : SlotState) :
    SEv → SlotState × List Out
  | .submitContent cid content fp => parseContentS encodeReq s cid content fp
  | .submitFile cid fp => parseFileS s cid fp
  | .resultRecord r => resultStepS s r
  | .readyRecord => readyStepS s
  | .closeEv => closeStepS s
  | .errorEv enoent => errorStepS s enoent
  | .timeoutEv => timeoutStepS s
  | .writeErrEv fp => writeErrStepS s fp
  | .disposeEv => disposeStepS s

/-- Running a slot trace, collecting all outputs. -/
def runS (encodeReq : List Char → List Char → List Char) (s : SlotState) :
    List SEv → SlotState × List Out
  | [] => (s, [])
  | e :: es =>
    ((runS encodeReq (stepS encodeReq s e).1 es).1,
     (stepS encodeReq s e).2 ++ (runS encodeReq (stepS encodeReq s e).1 es).2)


/-! ## Trace invariants -/

/-- Ghost correlation invariant of the FIFO variant: the ids of
answered entries followed by the ids of the still-queued entries are
exactly the ids of the wire requests sent, in order. -/
def fifoCorr (s : FifoState) : Prop :=
  s.answeredIds ++ s.requestQueue.map Entry.eid = s.sentIds

/-- Events that submit work or deliver results (no failure events). -/
def isNormalEv : FEv → Bool
  | .submit _ _ => true
  | .resultRecord _ => true
  | _ => false

theorem parseFileF_corr (s : FifoState) (cid : Nat) (key : List Char) (h : fifoCorr s) :
    fifoCorr (parseFileF s cid key).1 := by
  unfold parseFileF
  by_cases hready : s.isDaemonReady = true ∧ s.procAlive = true
  · rw [if_neg (by simpa using hready)]
    by_cases hdup : s.pendingKeys.contains key = true
    · rw [if_pos hdup]
      show s.answeredIds ++ List.map Entry.eid (List.map (fun e =>
          if e.key = key then { e with callers := e.callers ++ [cid] } else e)
          s.requestQueue) = s.sentIds
      have hmap : List.map Entry.eid (List.map (fun e =>
          if e.key = key then { e with callers := e.callers ++ [cid] } else e)
          s.requestQueue) = List.map Entry.eid s.requestQueue := by
        rw [List.map_map]
        refine List.map_congr_left fun e _ => ?_
        by_cases hk : e.key = key <;> simp [hk]
      rw [hmap]
      exact h
    · rw [if_neg hdup]
      show fifoCorr _
      unfold fifoCorr at h ⊢
      simp only [List.map_append, List.map_cons, List.map_nil]
      rw [← List.append_assoc, h]
  · rw [if_pos (by simpa using hready)]
    by_cases hip : s.initPromise <;> simp [hip] <;> exact h

theorem resultStepF_corr (s : FifoState) (r : ParseResult) (h : fifoCorr s) :
    fifoCorr (resultStepF s r).1 := by
  unfold resultStepF
  cases hq : s.requestQueue with
  | nil => exact h
  | cons e rest =>
    show fifoCorr _
    unfold fifoCorr at h ⊢
    rw [hq] at h
    simp only [List.map_cons] at h
    simp only [List.append_assoc, List.singleton_append]
    exact h

theorem stepF_corr (s : FifoState) (e : FEv) (h : fifoCorr s)
    (he : isNormalEv e = true) : fifoCorr (stepF s e).1 := by
  cases e with
  | submit cid key => exact parseFileF_corr s cid key h
  | resultRecord r => exact resultStepF_corr s r h
  | readyRecord => simp [isNormalEv] at he
  | closeEv => simp [isNormalEv] at he
  | errorEv enoent => simp [isNormalEv] at he
  | timeoutEv => simp [isNormalEv] at he
  | writeErrEv key => simp [isNormalEv] at he
  | disposeEv => simp [isNormalEv] at he

theorem runF_corr :
    ∀ (evts : List FEv) (s : FifoState), fifoCorr s →
      (∀ e ∈ evts, isNormalEv e = true) → fifoCorr (runF s evts).1 := by
  intro evts
  induction evts with
  | nil => intro s h _; exact h
  | cons e es ih =>
    intro s h hall
    show fifoCorr (runF (stepF s e).1 es).1
    exact ih (stepF s e).1 (stepF_corr s e h (hall e (by simp)))
      (fun x hx => hall x (by simp [hx]))

/-- An event that submits a request under caller id `x`. -/
def submitsCid : SEv → Nat → Prop
  | .submitContent cid _ _, x => cid = x
  | .submitFile cid _, x => cid = x
  | _, _ => False

theorem submitSlot_inv (x : Nat) (s : SlotState) (cid : Nat) (fp wl : List Char)
    (hs : ∀ q, s.currentRequest = some q → q.cid ≠ x) (hcid : cid ≠ x) :
    (∀ q, (submitSlot s cid fp wl).1.currentRequest = some q → q.cid ≠ x) ∧
    (∀ r, Out.resolve x r ∉ (submitSlot s cid fp wl).2) := by
  unfold submitSlot
  by_cases hready : s.isDaemonReady = true ∧ s.procAlive = true
  · rw [if_neg (by simpa using hready)]
    constructor
    · intro q hq
      simp only [Option.some.injEq] at hq
      rw [← hq]
      exact hcid
    · intro r hr
      simp only [List.mem_append] at hr
      rcases hr with hr | hr
      · cases hcur : s.currentRequest with
        | none => rw [hcur] at hr; simp at hr
        | some q => rw [hcur] at hr; simp at hr
      · simp at hr
  · rw [if_pos (by simpa using hready)]
    by_cases hip : s.initPromise <;> simp only [hip, if_pos, if_neg, if_true, if_false] <;>
      exact ⟨fun q hq => hs q hq, fun r hr => by simp at hr⟩

theorem resultStepS_none (s : SlotState) (r : ParseResult) (h : s.currentRequest = none) :
    resultStepS s r = (s, []) := by
  unfold resultStepS
  rw [h]

theorem resultStepS_some (s : SlotState) (req : SlotReq) (r : ParseResult)
    (h : s.currentRequest = some req) :
    resultStepS s r =
      ({ s with currentRequest := none }, [Out.resolve req.cid (postResult r)]) := by
  unfold resultStepS
  rw [h]

theorem writeErrStepS_none (s : SlotState) (fp : List Char) (h : s.currentRequest = none) :
    writeErrStepS s fp = (s, []) := by
  unfold writeErrStepS
  rw [h]

theorem writeErrStepS_some (s : SlotState) (req : SlotReq) (fp : List Char)
    (h : s.currentRequest = some req) :
    writeErrStepS s fp =
      if req.filePath = fp then
        ({ s with currentRequest := none }, [Out.reject req.cid .writeFailed])
      else (s, []) := by
  unfold writeErrStepS
  rw [h]

theorem mem_rejectAllOutsS (o : Out) (cur : Option SlotReq) (k : ErrKind)
    (h : o ∈ rejectAllOutsS cur k) : ∃ c, o = Out.reject c k := by
  cases cur with
  | none => simp [rejectAllOutsS] at h
  | some q =>
    simp only [rejectAllOutsS, List.mem_singleton] at h
    exact ⟨q.cid, h⟩

theorem stepS_inv (encodeReq : List Char → List Char → List Char) (x : Nat)
    (s : SlotState) (e : SEv)
    (hs : ∀ q, s.currentRequest = some q → q.cid ≠ x)
    (he : ¬ submitsCid e x) :
    (∀ q, (stepS encodeReq s e).1.currentRequest = some q → q.cid ≠ x) ∧
    (∀ r, Out.resolve x r ∉ (stepS encodeReq s e).2) := by
  cases e with
  | submitContent cid content fp =>
    exact submitSlot_inv x s cid fp _ hs (fun hc => he (by simpa [submitsCid] using hc))
  | submitFile cid fp =>
    exact submitSlot_inv x s cid fp _ hs (fun hc => he (by simpa [submitsCid] using hc))
  | resultRecord r =>
    cases hcur : s.currentRequest with
    | none =>
      rw [show stepS encodeReq s (SEv.resultRecord r) = resultStepS s r from rfl,
        resultStepS_none s r hcur]
      exact ⟨fun q hq => hs q hq, fun r2 hr => by simp at hr⟩
    | some req =>
      rw [show stepS encodeReq s (SEv.resultRecord r) = resultStepS s r from rfl,
        resultStepS_some s req r hcur]
      constructor
      · intro q hq
        simp at hq
      · intro r2 hr
        have h12 := List.mem_singleton.mp hr
        injection h12 with h1 _
        exact hs req hcur h1.symm
  | readyRecord =>
    have hstep : stepS encodeReq s SEv.readyRecord = ({ s with isDaemonReady := true }, [Out.initResolved]) := rfl
    rw [hstep]
    exact ⟨fun q hq => hs q hq,
      fun r hr => Out.noConfusion (List.mem_singleton.mp hr)⟩
  | closeEv =>
    have hstep : stepS encodeReq s SEv.closeEv = ({ s with isDaemonReady := false, procAlive := false, currentRequest := none, initPromise := false }, rejectAllOutsS s.currentRequest .processExited ++ [Out.initRejected .processExited]) := rfl
    rw [hstep]
    constructor
    · intro q hq
      simp at hq
    · intro r hr
      rcases List.mem_append.mp hr with h1 | h1
      · obtain ⟨c, hc⟩ := mem_rejectAllOutsS _ _ _ h1
        exact Out.noConfusion hc
      · exact Out.noConfusion (List.mem_singleton.mp h1)
  | errorEv enoent =>
    have hstep : stepS encodeReq s (SEv.errorEv enoent) = ({ s with isDaemonReady := false, procAlive := false, currentRequest := none, initPromise := false }, rejectAllOutsS s.currentRequest (if enoent then .spawnFailed else .daemonError) ++ [Out.initRejected (if enoent then .spawnFailed else .daemonError)]) := rfl
    rw [hstep]
    constructor
    · intro q hq
      simp at hq
    · intro r hr
      rcases List.mem_append.mp hr with h1 | h1
      · obtain ⟨c, hc⟩ := mem_rejectAllOutsS _ _ _ h1
        exact Out.noConfusion hc
      · exact Out.noConfusion (List.mem_singleton.mp h1)
  | timeoutEv =>
    rw [show stepS encodeReq s SEv.timeoutEv = timeoutStepS s from rfl]
    unfold timeoutStepS
    by_cases hrd : s.isDaemonReady = true
    · rw [if_pos hrd]
      exact ⟨fun q hq => hs q hq, fun r hr => by simp at hr⟩
    · rw [if_neg hrd]
      constructor
      · intro q hq
        exact hs q hq
      · intro r hr
        rcases List.mem_append.mp hr with h1 | h1
        · by_cases hp : s.procAlive = true
          · rw [if_pos hp] at h1
            exact Out.noConfusion (List.mem_singleton.mp h1)
          · rw [if_neg hp] at h1
            simp at h1
        · exact Out.noConfusion (List.mem_singleton.mp h1)
  | writeErrEv fp =>
    cases hcur : s.currentRequest with
    | none =>
      rw [show stepS encodeReq s (SEv.writeErrEv fp) = writeErrStepS s fp from rfl,
        writeErrStepS_none s fp hcur]
      exact ⟨fun q hq => hs q hq, fun r hr => by simp at hr⟩
    | some req =>
      rw [show stepS encodeReq s (SEv.writeErrEv fp) = writeErrStepS s fp from rfl,
        writeErrStepS_some s req fp hcur]
      by_cases hfp : req.filePath = fp
      · rw [if_pos hfp]
        constructor
        · intro q hq
          simp at hq
        · intro r hr
          exact Out.noConfusion (List.mem_singleton.mp hr)
      · rw [if_neg hfp]
        exact ⟨fun q hq => hs q hq, fun r hr => by simp at hr⟩
  | disposeEv =>
    have hstep : stepS encodeReq s SEv.disposeEv = ({ s with isDaemonReady := false, procAlive := false, currentRequest := none, initPromise := false }, (if s.procAlive then [Out.killDaemon] else []) ++ rejectAllOutsS s.currentRequest .disposed) := rfl
    rw [hstep]
    constructor
    · intro q hq
      simp at hq
    · intro r hr
      rcases List.mem_append.mp hr with h1 | h1
      · by_cases hp : s.procAlive = true
        · rw [if_pos hp] at h1
          exact Out.noConfusion (List.mem_singleton.mp h1)
        · rw [if_neg hp] at h1
          simp at h1
      · obtain ⟨c, hc⟩ := mem_rejectAllOutsS _ _ _ h1
        exact Out.noConfusion hc

theorem runS_no_resolve (encodeReq : List Char → List Char → List Char) (x : Nat) :
    ∀ (evs : List SEv) (s : SlotState),
      (∀ q, s.currentRequest = some q → q.cid ≠ x) →
      (∀ e ∈ evs, ¬ submitsCid e x) →
      ∀ r, Out.resolve x r ∉ (runS encodeReq s evs).2 := by
  intro evs
  induction evs with
  | nil => intro s _ _ r hr; simp [runS] at hr
  | cons e es ih =>
    intro s hs hall r hr
    have hstep := stepS_inv encodeReq x s e hs (hall e (by simp))
    show False
    have : Out.resolve x r ∈ (stepS encodeReq s e).2 ++
        (runS encodeReq (stepS encodeReq s e).1 es).2 := hr
    rcases List.mem_append.mp this with h | h
    · exact hstep.2 r h
    · exact ih (stepS encodeReq s e).1 hstep.1 (fun y hy => hall y (by simp [hy])) r h


/-! ## Claim theorems -/

/-- C1 (counterexample): from the ready state, two immediately accepted
submissions with distinct keys each write a wire request before any
result record arrives, so two wire requests are outstanding at once —
the claimed bound of at most one outstanding wire request is violated
(shown in the FIFO variant, whose `parseFile` writes to stdin on every
non-coalesced submission; the single-slot variant writes eagerly in the
same way). -/
theorem C1_single_outstanding_cex :
    ¬ ((runF readyF [FEv.submit 1 ['a'], FEv.submit 2 ['b']]).1.wireOut ≤ 1) := by
  decide

/-- C1 (amended): each accepted non-coalesced submission immediately
writes one wire request, so several may be outstanding simultaneously;
the correlation that does hold in the FIFO variant is positional —
along any trace of accepted submissions and result records from the
ready state, the ids of the answered entries followed by the ids of the
still-queued entries equal, in order, the ids of all wire requests
sent; hence the Nth result record received resolves the Nth wire
request sent. -/
theorem C1_fifo_order_correlation (evts : List FEv)
    (hnorm : ∀ e ∈ evts, isNormalEv e = true) :
    (runF readyF evts).1.answeredIds ++
      List.map Entry.eid (runF readyF evts).1.requestQueue =
      (runF readyF evts).1.sentIds :=
  runF_corr evts readyF rfl hnorm

/-- Trace used to witness the FIFO correlation invariant. -/
def evtsW : List FEv :=
  [FEv.submit 1 ['a'], FEv.submit 2 ['b'],
   FEv.resultRecord ⟨true, [], none, none, none, none⟩,
   FEv.resultRecord ⟨false, [], none, none, none, none⟩]

theorem C1_fifo_order_correlation_witness :
    (∀ e ∈ evtsW, isNormalEv e = true) ∧
    (runF readyF evtsW).1.answeredIds ++
      List.map Entry.eid (runF readyF evtsW).1.requestQueue =
      (runF readyF evtsW).1.sentIds :=
  ⟨by decide, C1_fifo_order_correlation evtsW (by decide)⟩

/-- C2: for any text and any partition of it into chunks, feeding the
chunks in order through the stdout-buffer accumulate / split-on-newline
/ keep-last-fragment drain yields exactly the complete records, in
arrival order, of feeding the text at once (and the same retained
fragment) — no record is split or merged. -/
theorem C2_framing_idempotent (s : List Char) (chunks : List (List Char))
    (hjoin : chunks.flatten = s) (hnl : s.getLast? = some '\n') :
    feedChunks [] chunks = feedChunk [] s := by
  have hne : chunks ≠ [] := by
    intro h
    rw [h] at hjoin
    simp only [List.flatten_nil] at hjoin
    rw [← hjoin] at hnl
    simp at hnl
  rw [← hjoin]
  exact feedChunks_join chunks hne []

theorem C2_framing_idempotent_witness :
    ([['a', 'b'], ['\n', 'c'], ['d', '\n']] : List (List Char)).flatten =
      ['a', 'b', '\n', 'c', 'd', '\n'] ∧
    (['a', 'b', '\n', 'c', 'd', '\n'] : List Char).getLast? = some '\n' ∧
    feedChunks [] [['a', 'b'], ['\n', 'c'], ['d', '\n']] =
      feedChunk [] ['a', 'b', '\n', 'c', 'd', '\n'] :=
  ⟨by decide, by decide,
   C2_framing_idempotent ['a', 'b', '\n', 'c', 'd', '\n']
     [['a', 'b'], ['\n', 'c'], ['d', '\n']] (by decide) (by decide)⟩

/-- C3: in the FIFO variant, submitting a key that is already pending
coalesces: nothing is emitted (no stdin write), no queue entry or sent
id is added, the new caller is attached to the existing entry for that
key, and on completion (a result, or a write failure of that key)
every attached caller receives the same outcome together. -/
theorem C3_dedup_coalesce (s : FifoState) (cid : Nat) (key : List Char)
    (hready : s.isDaemonReady = true) (halive : s.procAlive = true)
    (hdup : s.pendingKeys.contains key = true) :
    (parseFileF s cid key).2 = [] ∧
    (parseFileF s cid key).1.requestQueue.length = s.requestQueue.length ∧
    (parseFileF s cid key).1.sentIds = s.sentIds ∧
    (parseFileF s cid key).1.wireOut = s.wireOut ∧
    (parseFileF s cid key).1.requestQueue =
      s.requestQueue.map (fun e =>
        if e.key = key then { e with callers := e.callers ++ [cid] } else e) ∧
    (∀ (r : ParseResult) (e : Entry) (rest : List Entry), s.requestQueue = e :: rest →
      (resultStepF s r).2 = e.callers.map fun c => Out.resolve c (postResult r)) ∧
    (∀ e : Entry, s.requestQueue.find? (fun e2 => e2.key = key) = some e →
      (writeErrStepF s key).2 = e.callers.map fun c => Out.reject c .writeFailed) := by
  have hstep : parseFileF s cid key =
      ({ s with requestQueue := s.requestQueue.map fun e =>
          if e.key = key then { e with callers := e.callers ++ [cid] } else e }, []) := by
    unfold parseFileF
    rw [if_neg (by simp [hready, halive]), if_pos hdup]
  refine ⟨by rw [hstep], by rw [hstep]; simp, by rw [hstep], by rw [hstep],
    by rw [hstep], ?_, ?_⟩
  · intro r e rest hq
    unfold resultStepF
    rw [hq]
  · intro e he
    unfold writeErrStepF
    rw [he]

/-- A ready state with one pending entry for key `a`, used to witness
coalescing. -/
def sDup : FifoState :=
  { readyF with
    requestQueue := [⟨['a'], [1], 0⟩]
    pendingKeys := [['a']]
    wireOut := 1
    nextId := 1
    sentIds := [0] }

theorem C3_dedup_coalesce_witness :
    sDup.isDaemonReady = true ∧ sDup.pendingKeys.contains ['a'] = true ∧
    (parseFileF sDup 2 ['a']).2 = [] ∧
    (parseFileF sDup 2 ['a']).1.requestQueue = [⟨['a'], [1, 2], 0⟩] := by
  have h := C3_dedup_coalesce sDup 2 ['a'] rfl rfl (by decide)
  refine ⟨rfl, by decide, h.1, ?_⟩
  rw [h.2.2.2.2.1]
  decide

/-- The claim's reading of the diagnostic message: all of the text
after the first occurrence of the delimiter. -/
def textAfterFirstDelim (s : List Char) : Option (List Char) :=
  (findSub delim s).map fun i => s.drop (i + delim.length)

/-- The error string `1<SPACE>a<SPACE>b`, containing a second
delimiter occurrence inside the message. -/
def cexErr : List Char := ['1'] ++ delim ++ ['a'] ++ delim ++ ['b']

/-- C4 (counterexample): for `1<SPACE>a<SPACE>b` the produced
diagnostic's message is `a` — JavaScript `split(delim, 2)` keeps only
the first two segments — not the text after the first delimiter
(`a<SPACE>b`) as the claim states. -/
theorem C4_message_cex :
    textAfterFirstDelim cexErr = some (['a'] ++ delim ++ ['b']) ∧
    (parseErrorsToDiagnostics [cexErr] [['x']]).map Diag.message = [['a']] ∧
    (['a'] : List Char) ≠ ['a'] ++ delim ++ ['b'] := by
  refine ⟨by decide, ?_, by decide⟩
  have h := parseDiag_int cexErr [['x']] 1 1 (by decide) (by decide)
  rw [h]
  decide

/-- C4 (amended): each error string independently yields exactly one
diagnostic.  Without the delimiter, or when the part before the first
delimiter does not parse under `parseInt`, it is a whole-document
diagnostic with range `(0,0)-(0,1)` carrying the full string.  With the
delimiter and `parseInt` value `n`, it is anchored at the 0-based line
`clamp(n-1, 0, lineCount-1)` spanning from the line's first
non-whitespace character to its end, and its message is the segment
between the first and second delimiter occurrences (text after a
second delimiter is discarded).  Error lists map elementwise. -/
theorem C4_diagnostics_mapping (e : List Char) (doc : List (List Char)) :
    (findSub delim e = none →
      parseErrorsToDiagnostics [e] doc = [⟨0, 0, 0, 1, e⟩]) ∧
    (∀ i, findSub delim e = some i → jsParseInt (e.take i) = none →
      parseErrorsToDiagnostics [e] doc = [⟨0, 0, 0, 1, e⟩]) ∧
    (∀ i n, findSub delim e = some i → jsParseInt (e.take i) = some n →
      parseErrorsToDiagnostics [e] doc =
        [⟨clampLine n doc.length,
          firstNonWsIndex (doc.getD (clampLine n doc.length) []),
          clampLine n doc.length,
          (doc.getD (clampLine n doc.length) []).length,
          firstSeg delim (e.drop (i + delim.length))⟩]) ∧
    (∀ es1 es2, parseErrorsToDiagnostics (es1 ++ es2) doc =
      parseErrorsToDiagnostics es1 doc ++ parseErrorsToDiagnostics es2 doc) :=
  ⟨parseDiag_no_delim e doc,
   fun i h hn => parseDiag_bad_int e doc i h hn,
   fun i n h hn => parseDiag_int e doc i n h hn,
   fun es1 es2 => by simp [parseErrorsToDiagnostics]⟩

/-- The error string `3<SPACE>missing semicolon` of the spec's
scenario. -/
def errThree : List Char :=
  ['3'] ++ delim ++ ['m', 'i', 's', 's', 'i', 'n', 'g', ' ', 's', 'e', 'm', 'i',
    'c', 'o', 'l', 'o', 'n']

/-- A five-line document whose third line is `' x'`. -/
def docFive : List (List Char) :=
  [['l', '1'], ['l', '2'], [' ', 'x'], ['l', '4'], ['l', '5']]

theorem C4_diagnostics_mapping_witness :
    findSub delim errThree = some 1 ∧
    jsParseInt (errThree.take 1) = some 3 ∧
    parseErrorsToDiagnostics [errThree] docFive =
      [⟨2, 1, 2, 2,
        ['m', 'i', 's', 's', 'i', 'n', 'g', ' ', 's', 'e', 'm', 'i', 'c', 'o', 'l',
          'o', 'n']⟩] := by
  refine ⟨by decide, by decide, ?_⟩
  have h := (C4_diagnostics_mapping errThree docFive).2.2.1 1 3 (by decide) (by decide)
  rw [h]
  decide

/-- C5: an unexpected `close` or a spawn-level `error` (at any time,
ready or not) makes the parser not ready, clears the process handle
and the initialization promise, and rejects every currently pending
caller with the corresponding process-failure error; and because the
initialization promise is cleared, the next submission triggers a
fresh daemon start. -/
theorem C5_process_failure_rejects_all (s : FifoState) (cid : Nat) (key : List Char) :
    ((closeStepF s).1.isDaemonReady = false ∧
     (closeStepF s).1.procAlive = false ∧
     (closeStepF s).1.initPromise = false ∧
     (∀ e ∈ s.requestQueue, ∀ c ∈ e.callers,
       Out.reject c .processExited ∈ (closeStepF s).2)) ∧
    (∀ enoent, (errorStepF s enoent).1.isDaemonReady = false ∧
     (errorStepF s enoent).1.procAlive = false ∧
     (errorStepF s enoent).1.initPromise = false ∧
     (∀ e ∈ s.requestQueue, ∀ c ∈ e.callers,
       Out.reject c (if enoent then .spawnFailed else .daemonError) ∈
         (errorStepF s enoent).2)) ∧
    parseFileF (closeStepF s).1 cid key =
      ({ (closeStepF s).1 with initPromise := true }, [Out.spawnDaemon]) := by
  refine ⟨⟨rfl, rfl, rfl, ?_⟩, fun enoent => ⟨rfl, rfl, rfl, ?_⟩, ?_⟩
  · intro e he c hc
    apply List.mem_append_left
    simp only [rejectAllOuts, List.mem_flatMap]
    exact ⟨e, he, by simp only [List.mem_map]; exact ⟨c, hc, rfl⟩⟩
  · intro e he c hc
    apply List.mem_append_left
    simp only [rejectAllOuts, List.mem_flatMap]
    exact ⟨e, he, by simp only [List.mem_map]; exact ⟨c, hc, rfl⟩⟩
  · unfold parseFileF
    rw [if_pos (by simp [closeStepF]), if_neg (by simp [closeStepF])]

/-- A ready state with two pending requests, used to witness the
failure sweep. -/
def sTwoPending : FifoState :=
  { readyF with
    requestQueue := [⟨['a'], [1], 0⟩, ⟨['b'], [2], 1⟩]
    pendingKeys := [['a'], ['b']]
    wireOut := 2
    nextId := 2
    sentIds := [0, 1] }

theorem C5_process_failure_rejects_all_witness :
    Out.reject 1 .processExited ∈ (closeStepF sTwoPending).2 ∧
    Out.reject 2 .processExited ∈ (closeStepF sTwoPending).2 ∧
    parseFileF (closeStepF sTwoPending).1 3 ['c'] =
      ({ (closeStepF sTwoPending).1 with initPromise := true }, [Out.spawnDaemon]) := by
  have h := C5_process_failure_rejects_all sTwoPending 3 ['c']
  exact ⟨h.1.2.2.2 ⟨['a'], [1], 0⟩ (by decide) 1 (by decide),
    h.1.2.2.2 ⟨['b'], [2], 1⟩ (by decide) 2 (by decide), h.2.2⟩

/-- C6: in the single-slot variant, a new submission (`parseFile` or
`parseContent`) made while a request is pending immediately rejects
the pending request with the supersession error, installs the new
request as the sole pending request, and writes the new wire line; the
superseded caller can never receive a result afterwards (no later
event resolves its id unless that same id submits again). -/
theorem C6_single_slot_supersede (s : SlotState) (cid : Nat) (fp content : List Char)
    (req : SlotReq) (encodeReq : List Char → List Char → List Char)
    (hready : s.isDaemonReady = true) (halive : s.procAlive = true)
    (hcur : s.currentRequest = some req) (hne : req.cid ≠ cid) :
    parseFileS s cid fp =
      ({ s with currentRequest := some ⟨fp, cid⟩ },
       [Out.reject req.cid .superseded, Out.wireWrite (fp ++ ['\n'])]) ∧
    parseContentS encodeReq s cid content fp =
      ({ s with currentRequest := some ⟨fp, cid⟩ },
       [Out.reject req.cid .superseded, Out.wireWrite (encodeReq content fp ++ ['\n'])]) ∧
    (∀ evs, (∀ e ∈ evs, ¬ submitsCid e req.cid) →
      ∀ r : ParseResult,
        Out.resolve req.cid r ∉ (runS encodeReq (parseFileS s cid fp).1 evs).2) := by
  have hsub : ∀ wl, submitSlot s cid fp wl =
      ({ s with currentRequest := some ⟨fp, cid⟩ },
       [Out.reject req.cid .superseded, Out.wireWrite wl]) := by
    intro wl
    unfold submitSlot
    rw [if_neg (by simp [hready, halive]), hcur]
    rfl
  refine ⟨hsub _, hsub _, ?_⟩
  intro evs hall r
  refine runS_no_resolve encodeReq req.cid evs (parseFileS s cid fp).1 ?_ hall r
  intro q hq
  rw [show parseFileS s cid fp = submitSlot s cid fp (fp ++ ['\n']) from rfl, hsub] at hq
  simp only [Option.some.injEq] at hq
  rw [← hq]
  exact fun hcontra => hne hcontra.symm

/-- A ready slot state with request id 1 pending for key `a`. -/
def slotW : SlotState := ⟨true, true, [], some ⟨['a'], 1⟩, false⟩

theorem C6_single_slot_supersede_witness :
    slotW.currentRequest = some ⟨['a'], 1⟩ ∧ ((1 : Nat) ≠ 2) ∧
    parseFileS slotW 2 ['b'] =
      ({ slotW with currentRequest := some ⟨['b'], 2⟩ },
       [Out.reject 1 .superseded, Out.wireWrite (['b'] ++ ['\n'])]) :=
  ⟨rfl, by decide,
   (C6_single_slot_supersede slotW 2 ['b'] [] ⟨['a'], 1⟩ (fun c _ => c) rfl rfl rfl
     (by decide)).1⟩

/-- C7: if the startup deadline (10000 ms) fires before any readiness
record was decoded, `initialize()` rejects with the startup-timeout
error, the child process is killed, and the session is left not ready
with the process handle and the in-flight initialization promise
cleared (both variants behave identically). -/
theorem C7_startup_timeout :
    startupTimeoutMs = 10000 ∧
    (∀ s : FifoState, s.isDaemonReady = false → s.procAlive = true →
      timeoutStepF s =
        ({ s with isDaemonReady := false, procAlive := false, initPromise := false },
         [Out.killDaemon, Out.initRejected .startupTimeout])) ∧
    (∀ s : SlotState, s.isDaemonReady = false → s.procAlive = true →
      timeoutStepS s =
        ({ s with isDaemonReady := false, procAlive := false, initPromise := false },
         [Out.killDaemon, Out.initRejected .startupTimeout])) := by
  refine ⟨rfl, ?_, ?_⟩
  · intro s h1 h2
    unfold timeoutStepF
    rw [if_neg (by simp [h1]), if_pos h2]
    rfl
  · intro s h1 h2
    unfold timeoutStepS
    rw [if_neg (by simp [h1]), if_pos h2]
    rfl

theorem C7_startup_timeout_witness :
    ({ initF with procAlive := true } : FifoState).isDaemonReady = false ∧
    ({ initF with procAlive := true } : FifoState).procAlive = true ∧
    timeoutStepF { initF with procAlive := true } =
      ({ { initF with procAlive := true } with
          isDaemonReady := false
          procAlive := false
          initPromise := false },
       [Out.killDaemon, Out.initRejected .startupTimeout]) :=
  ⟨rfl, rfl, C7_startup_timeout.2.1 { initF with procAlive := true } rfl rfl⟩

/-- C8: `processErrors` inverts the worker's escape encoding: for any
error string without a raw backslash (so the literals `<`, `>`, `'`
and the delimiter token appear in the encoded wire string only as
their escaped forms), encoding then decoding is the identity. -/
theorem C8_escape_roundtrip (s : List Char) (h : ∀ c ∈ s, c ≠ '\\') :
    processErrorsOne (encodeErrorString s) = s ∧
    processErrors [encodeErrorString s] = [s] := by
  have h1 := decode_encode_aux s.length s le_rfl h
  exact ⟨h1, by simp only [processErrors, List.map_cons, List.map_nil, h1]⟩

/-- An error string containing `<`, `>`, `'` and the delimiter token:
`1<SPACE>can't use '<' or '>'`. -/
def escExample : List Char :=
  ['1'] ++ delim ++ ['c', 'a', 'n', '\'', 't', ' ', 'u', 's', 'e', ' ', '\'', '<',
    '\'', ' ', 'o', 'r', ' ', '\'', '>', '\'']

theorem C8_escape_roundtrip_witness :
    (∀ c ∈ escExample, c ≠ '\\') ∧
    processErrors [encodeErrorString escExample] = [escExample] :=
  ⟨by decide, (C8_escape_roundtrip escExample (by decide)).2⟩

/-- C9: a complete record that fails to decode is logged and discarded:
no pending request is resolved or rejected, the parser state is
untouched, and the drain continues with the remaining records exactly
as if the malformed record were absent (both variants). -/
theorem C9_malformed_record_skipped (decode : List Char → Option Msg) (line : List Char)
    (hdec : decode line = none) (hblank : isBlank line = false) :
    (∀ (s : FifoState) (rest : List (List Char)),
      processLineF decode s line = (s, [Out.logLine line]) ∧
      processLinesF decode s (line :: rest) =
        ((processLinesF decode s rest).1,
         Out.logLine line :: (processLinesF decode s rest).2)) ∧
    (∀ (s : SlotState) (rest : List (List Char)),
      processLineS decode s line = (s, [Out.logLine line]) ∧
      processLinesS decode s (line :: rest) =
        ((processLinesS decode s rest).1,
         Out.logLine line :: (processLinesS decode s rest).2)) := by
  constructor
  · intro s rest
    have h1 : processLineF decode s line = (s, [Out.logLine line]) := by
      unfold processLineF
      rw [if_neg (by simp [hblank]), hdec]
    refine ⟨h1, ?_⟩
    show ((processLinesF decode (processLineF decode s line).1 rest).1,
      (processLineF decode s line).2 ++
        (processLinesF decode (processLineF decode s line).1 rest).2) = _
    rw [h1]
    rfl
  · intro s rest
    have h1 : processLineS decode s line = (s, [Out.logLine line]) := by
      unfold processLineS
      rw [if_neg (by simp [hblank]), hdec]
    refine ⟨h1, ?_⟩
    show ((processLinesS decode (processLineS decode s line).1 rest).1,
      (processLineS decode s line).2 ++
        (processLinesS decode (processLineS decode s line).1 rest).2) = _
    rw [h1]
    rfl

theorem C9_malformed_record_skipped_witness :
    ((fun _ : List Char => (none : Option Msg)) ['x'] = none) ∧
    isBlank ['x'] = false ∧
    processLineF (fun _ => none) readyF ['x'] = (readyF, [Out.logLine ['x']]) :=
  ⟨rfl, by decide,
   ((C9_malformed_record_skipped (fun _ => none) ['x'] rfl (by decide)).1 readyF []).1⟩

/-- C10: a well-formed result record decoded while nothing is pending
(empty queue in the FIFO variant; no current request in the slot
variant) is silently dropped: no continuation fires, nothing is
written or logged, and the state is unchanged. -/
theorem C10_unmatched_result_dropped (decode : List Char → Option Msg) (line : List Char)
    (r : ParseResult) (hdec : decode line = some (Msg.result r))
    (hblank : isBlank line = false) :
    (∀ s : FifoState, s.requestQueue = [] → processLineF decode s line = (s, [])) ∧
    (∀ s : SlotState, s.currentRequest = none → processLineS decode s line = (s, [])) := by
  constructor
  · intro s hq
    unfold processLineF
    rw [if_neg (by simp [hblank]), hdec]
    unfold resultStepF
    rw [hq]
  · intro s hc
    unfold processLineS
    rw [if_neg (by simp [hblank]), hdec]
    exact resultStepS_none s r hc

/-- A concrete well-formed result used by the drop witness. -/
def resW : ParseResult := ⟨true, [], none, none, none, none⟩

theorem C10_unmatched_result_dropped_witness :
    ((fun _ : List Char => some (Msg.result resW)) ['x'] = some (Msg.result resW)) ∧
    readyF.requestQueue = [] ∧
    processLineF (fun _ => some (Msg.result resW)) readyF ['x'] = (readyF, []) :=
  ⟨rfl, rfl,
   (C10_unmatched_result_dropped (fun _ => some (Msg.result resW)) ['x'] resW rfl
     (by decide)).1 readyF rfl⟩

end Typegen
